import Mathlib

/-!
Verification of the super-auto-sim auto-battler core: a shallow embedding
of the Rust sources (`dice.rs`, `rng.rs`, `species.rs`, `friend.rs`,
`team.rs`, `shop.rs`, `battle.rs`, `food.rs`, `modifier.rs`, and the
compatible definitions in `main.rs`), followed by theorems about the
embedded definitions.

Conventions used throughout:
* `usize` values become `ℕ`; `saturating_sub` is `ℕ` subtraction.
* Code that can `panic!` / fail an `assert!` / `unwrap` a `None` returns
  `Option`, with `none` marking the abort.
* A half-open range `lo..hi` is passed as two naturals `lo`, `hi`.
* A pluggable dice source (the `Dice` / `RangeRng` traits) is a state
  type `σ` together with `roll : σ → ℕ → ℕ → Option (ℕ × σ)`; `none`
  models a panicking draw (as `rand::Rng::gen_range` does on an empty
  range).
* Fixed-capacity arrays of `Option` slots become `List (Option _)` of
  the corresponding length; `v[i]` becomes `l.getD i none` and
  `v[i] = x` becomes `l.set i x`.
-/

namespace SAS

/-- Tier 1 species in the free-to-play pack (`species.rs`). -/
inductive Species where
  | Ant | Beaver | Cricket | Duck | Fish | Horse | Mosquito | Otter | Pig
  | GhostCricket | Bee
deriving DecidableEq

/-- `modifier.rs`: passive effects attached to a unit. -/
inductive Modifier where
  | Honey
deriving DecidableEq

/-- `food.rs`: purchasable consumables. -/
inductive Food where
  | Apple | Honey
deriving DecidableEq

/-- `battle.rs`: outcome of a battle. -/
inductive Winner where
  | TeamA | TeamB | Tied
deriving DecidableEq

/-- `Species::default_power` (`species.rs`): default `(health, attack)`;
`none` models the panic on the two non-purchasable species. -/
def Species.default_power : Species → Option (ℕ × ℕ)
  | .Ant => some (2, 1)
  | .Beaver => some (2, 2)
  | .Cricket => some (1, 2)
  | .Duck => some (1, 2)
  | .Fish => some (2, 3)
  | .Horse => some (2, 1)
  | .Mosquito => some (2, 2)
  | .Otter => some (1, 2)
  | .Pig => some (3, 1)
  | .GhostCricket => none
  | .Bee => none

/-- `Species::can_purchase` (`species.rs`). -/
def Species.can_purchase : Species → Bool
  | .GhostCricket => false
  | .Bee => false
  | _ => true

/-- `Species::default_modifier` (`species.rs`): `None` for all Tier 1 units. -/
def Species.default_modifier (_ : Species) : Option Modifier := none

/-- `Animal::deterministic_in_battle` (`main.rs`): whether the species'
battle behaviour consumes no randomness. -/
def Species.deterministic_in_battle : Species → Bool
  | .Ant => false
  | .Mosquito => false
  | _ => true

/-- `friend.rs`: a unit embodied onto a team (or in the shop). -/
structure Friend where
  species : Species
  attack : ℕ
  health : ℕ
  modifier : Option Modifier
  exp : ℕ
deriving DecidableEq

/-- `Friend::new` (`friend.rs`): `none` models the `default_power` panic on
non-purchasable species. -/
def Friend.new (sp : Species) : Option Friend :=
  (sp.default_power).map fun p =>
    { species := sp, attack := p.2, health := p.1,
      modifier := sp.default_modifier, exp := 0 }

/-- `Friend::level` (`friend.rs`): the experience staircase; `none` models
the `panic!` on experience above 6. -/
def Friend.level (f : Friend) : Option ℕ :=
  if f.exp ≤ 2 then some 1
  else if f.exp ≤ 5 then some 1
  else if f.exp = 6 then some 3
  else none

/-- Modelled from the spec: `Friend::has_default_power` is called by
`Team::is_dumb` in `team.rs` but its definition is not among the sources;
the spec describes the tested units as being "at default stats" ("their
stock HP"), so this checks health and attack against the species'
`default_power`. -/
def Friend.has_default_power (f : Friend) : Bool :=
  match f.species.default_power with
  | some p => decide (f.health = p.1) && decide (f.attack = p.2)
  | none => false

/-- `TEAM_SIZE` (`main.rs`, also `params::TEAM_SIZE`). -/
def TEAM_SIZE : ℕ := 5

/-- `STORE_ANIMAL_COUNT` (`main.rs`), a.k.a. `params::SHOP_ANIMAL_COUNT`. -/
def SHOP_ANIMAL_COUNT : ℕ := 3

/-- `STORE_FOOD_COUNT` (`main.rs`), a.k.a. `params::SHOP_FOOD_COUNT`. -/
def SHOP_FOOD_COUNT : ℕ := 1

/-- `team.rs`: up to five friends; index 0 is the front.  The `TEAM_SIZE`
array of `Option<Friend>` becomes a length-5 list. -/
abbrev Team := List (Option Friend)

/-- `Team::count` (`team.rs`). -/
def Team.count (t : Team) : ℕ := t.countP (fun o => o.isSome)

/-- `Team::is_empty` (`team.rs`). -/
def Team.is_empty (t : Team) : Bool := Team.count t == 0

/-- `Team::is_dumb` (`team.rs`): fewer than three members, all of them
unmodified and at their stock power. -/
def Team.is_dumb (t : Team) : Bool :=
  decide (Team.count t < 3) &&
    t.all (fun o => match o with
      | none => true
      | some f => f.modifier.isNone && f.has_default_power)

/-- `Shop::combine_friends` (`shop.rs`), the stat part: combining the
incoming friend `g` into the target `f` (health/attack become
`max + 1`, experience of the target increases by 1). -/
def Friend.combine (f g : Friend) : Friend :=
  { f with health := max f.health g.health + 1,
           attack := max f.attack g.attack + 1,
           exp := f.exp + 1 }

/-- A friend at the Ant default power `(health 2, attack 1)`. -/
def antDefault : Friend := ⟨.Ant, 1, 2, none, 0⟩

/-- A pluggable dice source (the `Dice` trait of `dice.rs` and the
`RangeRng` trait of `rng.rs`): a draw from the half-open range `lo..hi`
takes the state to a value and a new state, or to `none` on a panicking
draw. -/
abbrev Roll (σ : Type) := σ → ℕ → ℕ → Option (ℕ × σ)

/-- `DeterministicDice` (`dice.rs`): a replayable list of
`(chosen value, range start, range end)` decisions plus a cursor.  The
`initialized` flag of the source is called `started` here. -/
structure DDice where
  started : Bool
  index : ℕ
  data : List (ℕ × ℕ × ℕ)
deriving DecidableEq

/-- `DeterministicDice::new` (`dice.rs`). -/
def DDice.new : DDice := ⟨false, 0, []⟩

/-- The pop-increment-carry loop inside `DeterministicDice::next`
(`dice.rs`), acting on the reversed decision list: pop the last decision,
increment its value, drop it if the value leaves its range, else keep it. -/
def ddCarryRev : List (ℕ × ℕ × ℕ) → List (ℕ × ℕ × ℕ)
  | [] => []
  | (v, lo, hi) :: rest =>
      if hi ≤ v + 1 then ddCarryRev rest else (v + 1, lo, hi) :: rest

/-- The carry loop of `DeterministicDice::next` on the decision list in
its stored order (the source pops from the back of the `Vec`). -/
def ddCarry (l : List (ℕ × ℕ × ℕ)) : List (ℕ × ℕ × ℕ) :=
  (ddCarryRev l.reverse).reverse

/-- `DeterministicDice::next` (`dice.rs`): the odometer advance; returns
whether more work remains, together with the new state. -/
def DDice.next (d : DDice) : Bool × DDice :=
  if d.started = false then (true, { d with started := true })
  else
    let data' := ddCarry d.data
    (!data'.isEmpty, ⟨d.started, 0, data'⟩)

/-- `<DeterministicDice as Dice>::roll` (`dice.rs`): replay the recorded
value at the cursor (with the key-loading special case that an empty
recorded range is first overwritten by the requested one), or append a new
decision seeded at the range minimum; `none` models the two `assert!`
failures. -/
def DDice.roll (d : DDice) (lo hi : ℕ) : Option (ℕ × DDice) :=
  match d.data.get? d.index with
  | some (v, rlo, rhi) =>
      let rlo' := if rhi ≤ rlo then lo else rlo
      let rhi' := if rhi ≤ rlo then hi else rhi
      if rlo' = lo ∧ rhi' = hi ∧ lo ≤ v ∧ v < hi then
        some (v, ⟨d.started, d.index + 1, d.data.set d.index (v, rlo', rhi')⟩)
      else none
  | none => some (lo, ⟨d.started, d.index + 1, d.data ++ [(lo, lo, hi)]⟩)

/-- The `DeterministicDice` state as a dice source. -/
def ddRoll : Roll DDice := fun d lo hi => d.roll lo hi

/-- `DeterministicDice::from_key` (`dice.rs`), with the base-36 character
decoding elided: each recorded choice is loaded with the empty placeholder
range `0..0`. -/
def DDice.from_key (ds : List ℕ) : DDice :=
  ⟨true, 0, ds.map fun v => (v, 0, 0)⟩

/-- A dice source backed by a real RNG (the blanket
`impl<R: rand::Rng> RangeRng for R` of `rng.rs`): an arbitrary tape of
numbers, each draw folding the next tape entry into the requested range.
Like `rand::Rng::gen_range`, it panics when the range is empty. -/
def strictRoll : Roll (List ℕ) := fun s lo hi =>
  if lo < hi then some (lo + s.headD 0 % (hi - lo), s.tail) else none

/-- A tape-backed dice source that, like the replay dice when appending,
yields the range minimum for an empty range instead of panicking. -/
def lenientRoll : Roll (List ℕ) := fun s lo hi =>
  if lo < hi then some (lo + s.headD 0 % (hi - lo), s.tail)
  else some (lo, s.tail)

/-- A dice source that always yields a value, in range whenever the
requested range is non-empty. -/
def RollTotalOK {σ : Type} (roll : Roll σ) : Prop :=
  ∀ s lo hi, ∃ v s', roll s lo hi = some (v, s') ∧
    (lo < hi → lo ≤ v ∧ v < hi)

/-- A dice source whose draws on non-empty ranges always succeed with an
in-range value (nothing is required of empty-range draws). -/
def RollOK {σ : Type} (roll : Roll σ) : Prop :=
  ∀ s lo hi, lo < hi → ∃ v s', roll s lo hi = some (v, s') ∧
    lo ≤ v ∧ v < hi

/-- `iter().enumerate().filter(|i| *i.1)` over a mask starting at index
`k`: the indices of `true` entries, in order. -/
def trueIdxsAux : List Bool → ℕ → List ℕ
  | [], _ => []
  | b :: rest, k =>
      if b then k :: trueIdxsAux rest (k + 1) else trueIdxsAux rest (k + 1)

/-- The indices of `true` entries of a mask, in order. -/
def trueIdxs (mask : List Bool) : List ℕ := trueIdxsAux mask 0

/-- `mask.iter().enumerate().filter(|i| *i.1).nth(j)`: the `j`-th index
holding `true`, if any. -/
def nthTrue (mask : List Bool) (j : ℕ) : Option ℕ := (trueIdxs mask).get? j

/-- The draw loop of `pick_where` (`rng.rs`) / `pick_some` (`dice.rs`):
`m` picks remain and `c` present candidates are still unpicked; each step
draws an index among the remaining candidates, removes it from the mask
and yields it.  `none` models the panicking draw / `unwrap`. -/
def pickGo {σ : Type} (roll : Roll σ) :
    ℕ → ℕ → List Bool → σ → Option (List ℕ × σ)
  | 0, _, _, s => some ([], s)
  | m + 1, c, mask, s => do
      let (j, s') ← roll s 0 c
      let k ← nthTrue mask j
      let (ks, s'') ← pickGo roll m (c - 1) (mask.set k false) s'
      pure (k :: ks, s'')

/-- `pick_some` (`rng.rs` / `dice.rs`): choose up to `n` indices of
present entries of `vs`, without replacement; the returned iterator is
consumed eagerly into a list at every call site. -/
def pick_some {σ α : Type} (roll : Roll σ) (n : ℕ) (vs : List (Option α))
    (s : σ) : Option (List ℕ × σ) :=
  let mask := vs.map Option.isSome
  let c := mask.countP id
  pickGo roll (min n c) c mask s

/-- `pick_one` (`rng.rs` / `dice.rs`). -/
def pick_one {σ α : Type} (roll : Roll σ) (vs : List (Option α)) (s : σ) :
    Option (Option ℕ × σ) :=
  (pick_some roll 1 vs s).map fun p => (p.1.head?, p.2)

/-- `Team::random_friends` (`team.rs`). -/
def Team.random_friends {σ : Type} (roll : Roll σ) (t : Team) (n : ℕ)
    (s : σ) : Option (List ℕ × σ) :=
  pick_some roll n t s

/-- `Team::random_friend` (`team.rs`). -/
def Team.random_friend {σ : Type} (roll : Roll σ) (t : Team) (s : σ) :
    Option (Option ℕ × σ) :=
  pick_one roll t s

/-- `Team::on_summon` (`team.rs`): the unit at `i` reacts to a summon at
`pos` (only the Horse does anything); `none` models the three `assert!`
failures. -/
def Team.on_summon (t : Team) (i pos : ℕ) : Option Team :=
  if i = pos then none
  else do
    let fi ← t.getD i none
    let _ ← t.getD pos none
    match fi.species with
    | Species.Horse => do
        let f ← t.getD pos none
        pure (t.set pos (some { f with attack := f.attack + 1,
                                       health := f.health + 1 }))
    | _ => pure t

/-- `Team::summon` (`team.rs`): place `friend` at `pos`, then let every
other occupied slot react in slot order. -/
def Team.summon (t : Team) (friend : Friend) (pos : ℕ) : Option Team :=
  (List.range TEAM_SIZE).foldlM
    (fun t i =>
      if i ≠ pos ∧ (t.getD i none).isSome then Team.on_summon t i pos
      else pure t)
    (t.set pos (some friend))

/-- The `while i < TEAM_SIZE && self[i].is_some()` scan of
`Team::compact` (`team.rs`), with the remaining distance to `TEAM_SIZE`
made a structural fuel argument. -/
def Team.skipSomeGo (t : Team) : ℕ → ℕ → ℕ
  | 0, i => i
  | r + 1, i => if (t.getD i none).isSome then Team.skipSomeGo t r (i + 1)
                else i

/-- The first index `≥ i` (capped at `TEAM_SIZE`) holding an empty slot. -/
def Team.skipSome (t : Team) (i : ℕ) : ℕ := Team.skipSomeGo t (TEAM_SIZE - i) i

/-- The `while j < TEAM_SIZE && self[j].is_none()` scan of
`Team::compact` (`team.rs`). -/
def Team.skipNoneGo (t : Team) : ℕ → ℕ → ℕ
  | 0, j => j
  | r + 1, j => if (t.getD j none).isNone then Team.skipNoneGo t r (j + 1)
                else j

/-- The first index `≥ j` (capped at `TEAM_SIZE`) holding an occupied
slot. -/
def Team.skipNone (t : Team) (j : ℕ) : ℕ := Team.skipNoneGo t (TEAM_SIZE - j) j

/-- The outer loop of `Team::compact` (`team.rs`): find the first gap `i`,
the first occupied slot `j` after it, move `j` into `i`, resume.  After
the move slot `i` is occupied, so the next scan resumes at `i + 1`; the
fuel argument only bounds the at most `TEAM_SIZE` moves. -/
def Team.compactGo : ℕ → Team → ℕ → Team
  | 0, t, _ => t
  | fuel + 1, t, i =>
      let i' := Team.skipSome t i
      let j := Team.skipNone t i'
      if TEAM_SIZE ≤ i' ∨ TEAM_SIZE ≤ j then t
      else Team.compactGo fuel ((t.set i' (t.getD j none)).set j none) (i' + 1)

/-- `Team::compact` (`team.rs`): shuffle members so they are tightly
packed against index 0. -/
def Team.compact (t : Team) : Team := Team.compactGo (TEAM_SIZE + 1) t 0

/-- The first index in `[lo, hi)` holding an empty slot, if any (the two
`for j in …` searches of `Team::make_space_at`). -/
def Team.firstNone (t : Team) (lo hi : ℕ) : Option ℕ :=
  (List.range' lo (hi - lo)).find? fun j => (t.getD j none).isNone

/-- `Team::make_space_at` (`team.rs`): vacate slot `i` by shifting the
occupants between `i` and the nearest gap (first looking behind `i`, then
in front); returns whether space was made; `none` models the `assert!`
failures inside the shifts. -/
def Team.make_space_at (t : Team) (i : ℕ) : Option (Bool × Team) :=
  if (t.getD i none).isNone then some (true, t)
  else
    match Team.firstNone t (i + 1) TEAM_SIZE with
    | some j => do
        let t' ← (List.range' i (j - i)).reverse.foldlM
          (fun t k =>
            if (t.getD (k + 1) none).isSome then none
            else some ((t.set (k + 1) (t.getD k none)).set k none)) t
        if (t'.getD i none).isSome then none else some (true, t')
    | none =>
        match Team.firstNone t 0 i with
        | some j => do
            let t' ← (List.range' j (i - j)).foldlM
              (fun t k =>
                if (t.getD k none).isSome then none
                else some ((t.set k (t.getD (k + 1) none)).set (k + 1) none))
              t
            if (t'.getD i none).isSome then none else some (true, t')
        | none =>
            if (t.getD i none).isNone then none else some (false, t)

/-- `Team::on_death` (`team.rs`): the removed friend `f`, formerly at the
(now vacated) slot `i`, reacts: a Cricket summons a ghost cricket with its
level as stats, an Ant buffs a random surviving friend, and a Honey
modifier tries to summon a 1/1 Bee into space made at `i`. -/
def Team.on_death {σ : Type} (roll : Roll σ) (f : Friend) (i : ℕ) (t : Team)
    (s : σ) : Option (Team × σ) := do
  if (t.getD i none).isSome then none
  else do
    let (t, s) ← (match f.species with
      | Species.Cricket => do
          let lv ← f.level
          let t := t.set i (some ⟨Species.GhostCricket, lv, lv, none, 0⟩)
          let t ← (List.range TEAM_SIZE).foldlM
            (fun t j =>
              if i ≠ j ∧ (t.getD j none).isSome then Team.on_summon t j i
              else pure t) t
          pure (t, s)
      | Species.Ant => do
          let (jo, s') ← Team.random_friend roll t s
          match jo with
          | some j => do
              let g ← t.getD j none
              let lv ← f.level
              pure (t.set j (some { g with attack := g.attack + lv * 2,
                                           health := g.health + lv }), s')
          | none => pure (t, s')
      | _ => pure (t, s) : Option (Team × σ))
    match f.modifier with
    | some Modifier.Honey => do
        let bee : Friend := ⟨Species.Bee, 1, 1, none, 0⟩
        let (ok, t') ← Team.make_space_at t i
        if ok then do
          let t'' ← (List.range TEAM_SIZE).foldlM
            (fun t j =>
              if i ≠ j ∧ (t.getD j none).isSome then Team.on_summon t j i
              else pure t) (t'.set i (some bee))
          pure (t'', s)
        else pure (t', s)
    | none => pure (t, s)

/-- `Team::remove_dead` (`team.rs`): scan slots front to back, detach any
friend at health 0 and fire its on-death reaction, then compact the team
once if anything was removed. -/
def Team.remove_dead {σ : Type} (roll : Roll σ) (t : Team) (s : σ) :
    Option (Team × σ) := do
  let (t, s, changed) ← (List.range TEAM_SIZE).foldlM
    (fun (acc : Team × σ × Bool) i => do
      let (t, s, changed) := acc
      match t.getD i none with
      | some f =>
          if f.health = 0 then do
            let (t', s') ← Team.on_death roll f i (t.set i none) s
            pure (t', s', true)
          else pure (t, s, changed)
      | none => pure (t, s, changed))
    (t, s, false)
  pure (if changed then Team.compact t else t, s)

/-- `Team::deterministic_in_battle` (`main.rs`): every member's species is
deterministic in battle. -/
def Team.deterministic_in_battle (t : Team) : Bool :=
  t.all fun o => match o with
    | none => true
    | some f => f.species.deterministic_in_battle

/-- `battle.rs`: an ordered pair of teams; `a` fights for `Winner::TeamA`. -/
structure Battle where
  a : Team
  b : Team
deriving DecidableEq

/-- `Index<bool> for Battle` (`battle.rs`): `true` picks the first team. -/
def Battle.side (bt : Battle) (side : Bool) : Team :=
  if side then bt.a else bt.b

/-- `IndexMut<bool> for Battle` (`battle.rs`). -/
def Battle.setSide (bt : Battle) (side : Bool) (t : Team) : Battle :=
  if side then { bt with a := t } else { bt with b := t }

/-- `Battle::is_deterministic` (`main.rs`). -/
def Battle.is_deterministic (bt : Battle) : Bool :=
  Team.deterministic_in_battle bt.a && Team.deterministic_in_battle bt.b

/-- `Battle::on_battle_start` (`battle.rs`): the unit at slot `i` of team
`side` fires its pre-battle ability at the opposing team (only the
Mosquito does anything: `level` 1-damage shots at random occupied enemy
slots, health floored at 0). -/
def Battle.on_battle_start {σ : Type} (roll : Roll σ) (bt : Battle) (i : ℕ)
    (side : Bool) (s : σ) : Option (Battle × σ) :=
  match (bt.side side).getD i none with
  | none => some (bt, s)
  | some f =>
    match f.species with
    | Species.Mosquito => do
        let lv ← f.level
        let (js, s') ← Team.random_friends roll (bt.side !side) lv s
        let t' ← js.foldlM
          (fun t j => do
            let g ← t.getD j none
            pure (t.set j (some { g with health := g.health - 1 })))
          (bt.side !side)
        pure (bt.setSide (!side) t', s')
    | _ => some (bt, s)

/-- `Battle::before_battle` (`battle.rs`): fire every slot's battle-start
ability (team `a` first), then remove the dead from both teams once. -/
def Battle.before_battle {σ : Type} (roll : Roll σ) (bt : Battle) (s : σ) :
    Option (Battle × σ) := do
  let (bt, s) ← [true, false].foldlM
    (fun (p : Battle × σ) tm =>
      (List.range TEAM_SIZE).foldlM
        (fun (p : Battle × σ) i => Battle.on_battle_start roll p.1 i tm p.2)
        p)
    (bt, s)
  let (ta, s) ← Team.remove_dead roll bt.a s
  let (tb, s) ← Team.remove_dead roll bt.b s
  pure (⟨ta, tb⟩, s)

/-- `Battle::step` (`battle.rs`): one clash: the two front units deal each
other damage equal to the opponent's attack simultaneously (saturating at
0), then the dead are removed from both teams. -/
def Battle.step {σ : Type} (roll : Roll σ) (bt : Battle) (s : σ) :
    Option (Battle × σ) := do
  let f ← bt.a.getD 0 none
  let g ← bt.b.getD 0 none
  let (ta, s) ← Team.remove_dead roll
    (bt.a.set 0 (some { f with health := f.health - g.attack })) s
  let (tb, s) ← Team.remove_dead roll
    (bt.b.set 0 (some { g with health := g.health - f.attack })) s
  pure (⟨ta, tb⟩, s)

/-- The `for i in 0..` turn loop of `Battle::run` (`battle.rs`), with a
structural fuel argument; `some none` marks fuel exhaustion (the source
loops on), the outer `none` a panic. -/
def Battle.run_go {σ : Type} (roll : Roll σ) :
    ℕ → Battle → σ → Option (Option Winner)
  | 0, _, _ => some none
  | n + 1, bt, s =>
    match Team.is_empty bt.a, Team.is_empty bt.b with
    | true, true => some (some Winner.Tied)
    | false, true => some (some Winner.TeamA)
    | true, false => some (some Winner.TeamB)
    | false, false =>
        (Battle.step roll bt s).bind fun p => Battle.run_go roll n p.1 p.2

/-- `Battle::run` (`battle.rs`): pre-battle phase, then the turn loop. -/
def Battle.run {σ : Type} (roll : Roll σ) (fuel : ℕ) (bt : Battle) (s : σ) :
    Option (Option Winner) :=
  (Battle.before_battle roll bt s).bind fun p => Battle.run_go roll fuel p.1 p.2

/-- `shop.rs`: the shop state: the team being built, the gold balance and
the friend/food offers. -/
structure Shop where
  team : Team
  gold : ℕ
  shop_friends : List (Option Friend)
  shop_foods : List (Option Food)
deriving DecidableEq

/-- `Species::sample` (`species.rs`): uniform over the nine purchasable
species; `none` covers the panicking draw and the unreachable arm. -/
def Species.sample {σ : Type} (roll : Roll σ) (s : σ) :
    Option (Species × σ) := do
  let (v, s') ← roll s 0 9
  match v with
  | 0 => pure (Species.Ant, s')
  | 1 => pure (Species.Beaver, s')
  | 2 => pure (Species.Cricket, s')
  | 3 => pure (Species.Duck, s')
  | 4 => pure (Species.Fish, s')
  | 5 => pure (Species.Horse, s')
  | 6 => pure (Species.Mosquito, s')
  | 7 => pure (Species.Otter, s')
  | 8 => pure (Species.Pig, s')
  | _ => none

/-- `Food::sample` (`food.rs`). -/
def Food.sample {σ : Type} (roll : Roll σ) (s : σ) : Option (Food × σ) := do
  let (v, s') ← roll s 0 2
  match v with
  | 0 => pure (Food.Apple, s')
  | 1 => pure (Food.Honey, s')
  | _ => none

/-- `Shop::reroll` (`shop.rs`): resample every friend offer, then every
food offer. -/
def Shop.reroll {σ : Type} (roll : Roll σ) (sh : Shop) (s : σ) :
    Option (Shop × σ) := do
  let (fs, s) ← (List.range SHOP_ANIMAL_COUNT).foldlM
    (fun (p : List (Option Friend) × σ) _ => do
      let (sp, s') ← Species.sample roll p.2
      let f ← Friend.new sp
      pure (p.1 ++ [some f], s'))
    ([], s)
  let (fds, s) ← (List.range SHOP_FOOD_COUNT).foldlM
    (fun (p : List (Option Food) × σ) _ => do
      let (fd, s') ← Food.sample roll p.2
      pure (p.1 ++ [some fd], s'))
    ([], s)
  pure ({ sh with shop_friends := fs, shop_foods := fds }, s)

/-- `Shop::new` (`shop.rs`): 10 gold, an empty team, and a first reroll. -/
def Shop.new {σ : Type} (roll : Roll σ) (s : σ) : Option (Shop × σ) :=
  Shop.reroll roll
    ⟨List.replicate TEAM_SIZE none, 10,
     List.replicate SHOP_ANIMAL_COUNT none,
     List.replicate SHOP_FOOD_COUNT none⟩ s

/-- `Shop::random_friend` (`shop.rs`): a uniformly chosen index among the
present friend offers, or `None` when there are none. -/
def Shop.random_friend {σ : Type} (roll : Roll σ) (sh : Shop) (s : σ) :
    Option (Option ℕ × σ) :=
  let n := (sh.shop_friends.map Option.isSome).countP id
  if n = 0 then some (none, s)
  else do
    let (i, s') ← roll s 0 n
    let j ← nthTrue (sh.shop_friends.map Option.isSome) i
    if (sh.shop_friends.getD j none).isSome then some (some j, s') else none

/-- `Shop::random_food` (`shop.rs`). -/
def Shop.random_food {σ : Type} (roll : Roll σ) (sh : Shop) (s : σ) :
    Option (Option ℕ × σ) :=
  if sh.shop_foods.all Option.isNone then some (none, s)
  else pick_one roll sh.shop_foods s

/-- `Shop::combine_friends` (`shop.rs`): combine the incoming friend `g`
into the team slot `pos`; `none` models the unwrap and the same-species
`assert!`. -/
def Shop.combine_friends (sh : Shop) (pos : ℕ) (g : Friend) : Option Shop := do
  let f ← sh.team.getD pos none
  if f.species = g.species then
    pure { sh with team := sh.team.set pos (some (Friend.combine f g)) }
  else none

/-- `Shop::on_buy` (`shop.rs`): only the Otter does anything (buff one
random friend by +1/+1). -/
def Shop.on_buy {σ : Type} (roll : Roll σ) (sh : Shop) (f : Friend) (s : σ) :
    Option (Shop × σ) :=
  match f.species with
  | Species.Otter => do
      let (is, s') ← Team.random_friends roll sh.team 1 s
      let t ← is.foldlM
        (fun (t : Team) i => do
          let g ← t.getD i none
          pure (t.set i (some { g with health := g.health + 1,
                                       attack := g.attack + 1 })))
        sh.team
      pure ({ sh with team := t }, s')
  | _ => pure (sh, s)

/-- `Shop::on_sell` (`shop.rs`): Beaver buffs two random friends' health
by its level, Duck buffs every shop offer's health by its level, Pig
grants its level in gold. -/
def Shop.on_sell {σ : Type} (roll : Roll σ) (sh : Shop) (a : Friend) (s : σ) :
    Option (Shop × σ) :=
  match a.species with
  | Species.Beaver => do
      let lv ← a.level
      let (is, s') ← Team.random_friends roll sh.team 2 s
      let t ← is.foldlM
        (fun (t : Team) i => do
          let f ← t.getD i none
          pure (t.set i (some { f with health := f.health + lv })))
        sh.team
      pure ({ sh with team := t }, s')
  | Species.Duck => do
      let lv ← a.level
      pure ({ sh with shop_friends :=
        sh.shop_friends.map (Option.map fun f =>
          { f with health := f.health + lv }) }, s)
  | Species.Pig => do
      let lv ← a.level
      pure ({ sh with gold := sh.gold + lv }, s)
  | _ => pure (sh, s)

/-- `Shop::buy_friend` (`shop.rs`): pay 3 gold, take the offer, then
either summon it into an empty slot (on-buy ability first) or combine it
into a same-species slot (on-buy ability after, on the detached combined
unit). -/
def Shop.buy_friend {σ : Type} (roll : Roll σ) (sh : Shop)
    (shop_pos team_pos : ℕ) (s : σ) : Option (Shop × σ) := do
  if sh.gold < 3 then none
  else do
    let sh1 := { sh with gold := sh.gold - 3 }
    let friend ← sh1.shop_friends.getD shop_pos none
    let sh2 := { sh1 with shop_friends := sh1.shop_friends.set shop_pos none }
    match sh2.team.getD team_pos none with
    | none => do
        let (sh3, s) ← Shop.on_buy roll sh2 friend s
        let t ← Team.summon sh3.team friend team_pos
        pure ({ sh3 with team := t }, s)
    | some _ => do
        let sh3 ← Shop.combine_friends sh2 team_pos friend
        let fr ← sh3.team.getD team_pos none
        let sh4 := { sh3 with team := sh3.team.set team_pos none }
        let (sh5, s) ← Shop.on_buy roll sh4 fr s
        pure ({ sh5 with team := sh5.team.set team_pos (some fr) }, s)

/-- `Shop::sell_friend` (`shop.rs`): detach the unit, credit its level in
gold, fire its on-sell ability (the on-sold loop over the remaining slots
is a no-op for every Tier 1 species). -/
def Shop.sell_friend {σ : Type} (roll : Roll σ) (sh : Shop) (team_pos : ℕ)
    (s : σ) : Option (Shop × σ) := do
  let a ← sh.team.getD team_pos none
  let sh1 := { sh with team := sh.team.set team_pos none }
  let lv ← a.level
  Shop.on_sell roll { sh1 with gold := sh1.gold + lv } a s

/-- `Shop::buy_food` (`shop.rs`): pay 3 gold (the caller checked the
balance; the guard models the `usize` underflow), take the food offer, and
apply it to the chosen team member. -/
def Shop.buy_food (sh : Shop) (shop_pos team_pos : ℕ) : Option Shop := do
  let food ← sh.shop_foods.getD shop_pos none
  let friend ← sh.team.getD team_pos none
  if sh.gold < 3 then none
  else do
    let sh1 := { sh with shop_foods := sh.shop_foods.set shop_pos none,
                         gold := sh.gold - 3 }
    match food with
    | Food.Apple =>
        let f' : Friend :=
          { friend with attack := friend.attack + 1,
                        health := friend.health + 1 }
        pure { sh1 with team := sh1.team.set team_pos (some f') }
    | Food.Honey =>
        let f' : Friend := { friend with modifier := some Modifier.Honey }
        pure { sh1 with team := sh1.team.set team_pos (some f') }

/-- The rejection loop of `Team::random_compatible_slot`.  The shop state
machine (`shop.rs`) calls `team.random_compatible_slot`, whose definition
is absent from `team.rs`; this follows the implementation in `main.rs`
(which, note, draws slot indices from `0..STORE_ANIMAL_COUNT`, not
`0..TEAM_SIZE`): reject-sample until an empty or species-matching slot is
found.  The source loop is unbounded; the fuel argument makes it total,
with `none` standing for a loop that never finds a slot. -/
def Team.rcs_go {σ : Type} (roll : Roll σ) (t : Team) (a : Species) :
    ℕ → σ → Option (Option ℕ × σ)
  | 0, _ => none
  | n + 1, s => do
      let (i, s') ← roll s 0 SHOP_ANIMAL_COUNT
      match t.getD i none with
      | none => pure (some i, s')
      | some f =>
          if f.species = a then pure (some i, s')
          else Team.rcs_go roll t a n s'

/-- `Team::random_compatible_slot` (`main.rs`): `None` when the team is
full, else a randomly drawn empty or species-matching slot. -/
def Team.random_compatible_slot {σ : Type} (roll : Roll σ) (t : Team)
    (a : Species) (s : σ) : Option (Option ℕ × σ) :=
  if t.all Option.isSome then pure (none, s)
  else Team.rcs_go roll t a 64 s

/-- Whether team slot `i` has a same-species partner at another slot (the
`has_targets` array of `Shop::step`). -/
def Shop.has_target (t : Team) (i : ℕ) : Bool :=
  (List.range TEAM_SIZE).any fun j =>
    decide (j ≠ i) &&
      (match t.getD i none, t.getD j none with
       | some a, some b => decide (a.species = b.species)
       | _, _ => false)

/-- The row `targets[i]` of `Shop::step` as a mask over `j`. -/
def Shop.target_row (t : Team) (i : ℕ) : List Bool :=
  (List.range TEAM_SIZE).map fun j =>
    decide (j ≠ i) &&
      (match t.getD i none, t.getD j none with
       | some a, some b => decide (a.species = b.species)
       | _, _ => false)

/-- `Shop::step` (`shop.rs`): draw an action among 5, perform it; `true`
means the exploration branch terminates.  Buy a friend (0), buy food (1),
sell (2), reroll (3), merge duplicates (4). -/
def Shop.step {σ : Type} (roll : Roll σ) (sh : Shop) (s : σ) :
    Option (Bool × Shop × σ) := do
  let (r, s) ← roll s 0 5
  match r with
  | 0 =>
      if sh.gold < 3 then pure (true, sh, s)
      else do
        let (io, s) ← Shop.random_friend roll sh s
        match io with
        | some i => do
            let a ← sh.shop_friends.getD i none
            let (jo, s) ← Team.random_compatible_slot roll sh.team a.species s
            match jo with
            | some j => do
                let (sh, s) ← Shop.buy_friend roll sh i j s
                pure (false, sh, s)
            | none => pure (true, sh, s)
        | none => pure (true, sh, s)
  | 1 =>
      if sh.gold < 3 then pure (true, sh, s)
      else do
        let (io, s) ← Shop.random_food roll sh s
        match io with
        | some i => do
            let (jo, s) ← Team.random_friend roll sh.team s
            match jo with
            | some j => do
                let sh ← Shop.buy_food sh i j
                pure (false, sh, s)
            | none => pure (true, sh, s)
        | none => pure (true, sh, s)
  | 2 => do
      let (jo, s) ← Team.random_friend roll sh.team s
      match jo with
      | some j => do
          let (sh, s) ← Shop.sell_friend roll sh j s
          pure (false, sh, s)
      | none => pure (true, sh, s)
  | 3 =>
      if 0 < sh.gold then do
        let (sh, s) ← Shop.reroll roll sh s
        pure (false, { sh with gold := sh.gold - 1 }, s)
      else pure (true, sh, s)
  | 4 => do
      let mask := (List.range TEAM_SIZE).map (Shop.has_target sh.team)
      let num := mask.countP id
      let (v, s) ← roll s 0 num
      match nthTrue mask v with
      | some i => do
          let row := Shop.target_row sh.team i
          let numj := row.countP id
          let (w, s) ← roll s 0 numj
          let j ← nthTrue row w
          let friend ← sh.team.getD i none
          let sh1 := { sh with team := sh.team.set i none }
          let sh2 ← Shop.combine_friends sh1 j friend
          pure (false, sh2, s)
      | none => pure (true, sh, s)
  | _ => none

/-- Occupied slots are contiguous from index 0: no empty slot is followed
by an occupied one. -/
def Team.contiguousB (t : Team) : Bool :=
  (List.range (t.length - 1)).all fun p =>
    (t.getD p none).isSome || (t.getD (p + 1) none).isNone

/-- A per-friend weight extended to slots: empty slots weigh 0. -/
def wOpt (w : Friend → ℕ) : Option Friend → ℕ
  | none => 0
  | some f => w f

/-- The sum of a per-friend weight over the occupied slots of a team. -/
def Team.sumW (w : Friend → ℕ) (t : Team) : ℕ := (t.map (wOpt w)).sum

/-- The spawn potential of a friend: what its death can add back to the
battle (a Cricket's ghost plus its summon buffs, an Ant's buff, a Honey
bee plus its summon buffs are each worth at most 8). -/
def spawnW (f : Friend) : ℕ :=
  (if f.species = Species.Cricket then 8 else 0) +
    (if f.species = Species.Ant then 8 else 0) +
    (if f.modifier = some Modifier.Honey then 8 else 0)

/-- The battle termination measure of one friend: health plus spawn
potential. -/
def wM (f : Friend) : ℕ := f.health + spawnW f

/-- The battle termination measure of a battle state. -/
def Battle.measure (bt : Battle) : ℕ :=
  Team.sumW wM bt.a + Team.sumW wM bt.b

/-- A property of friends stable under ability buffs: growing health and
attack while keeping species, modifier and experience cannot destroy it. -/
def buffClosed (P : Friend → Prop) : Prop :=
  ∀ f f', f.species = f'.species → f.modifier = f'.modifier →
    f.exp = f'.exp → f.health ≤ f'.health → f.attack ≤ f'.attack →
    P f → P f'

/-- Slot-wise relation between a team and a buffed version of it: same
length, same occupancy, and every occupant has grown (weakly) in health
and attack while keeping species, modifier and experience. -/
def BuffedLE (t t' : Team) : Prop :=
  t'.length = t.length ∧
    (∀ p, t'.getD p none = none ↔ t.getD p none = none) ∧
    (∀ p f', t'.getD p none = some f' → ∃ f, t.getD p none = some f ∧
      f.species = f'.species ∧ f.modifier = f'.modifier ∧ f.exp = f'.exp ∧
      f.health ≤ f'.health ∧ f.attack ≤ f'.attack)

/-- Slot-wise relation between a team and a version of it hit by
battle-start shots: same length, same occupancy, and every occupant kept
its species, modifier, experience and attack while (weakly) losing
health. -/
def ShotLE (t t' : Team) : Prop :=
  t'.length = t.length ∧
    (∀ p, t'.getD p none = none ↔ t.getD p none = none) ∧
    (∀ p f', t'.getD p none = some f' → ∃ f, t.getD p none = some f ∧
      f'.species = f.species ∧ f'.modifier = f.modifier ∧ f'.exp = f.exp ∧
      f'.attack = f.attack ∧ f'.health ≤ f.health)

-- ===================================================================
-- Theorems
-- ===================================================================

@[simp] theorem Team.count_nil : Team.count [] = 0 := rfl

@[simp] theorem Team.count_cons_none (t : Team) :
    Team.count (none :: t) = Team.count t := by
  simp [Team.count, List.countP_cons]

@[simp] theorem Team.count_cons_some (f : Friend) (t : Team) :
    Team.count (some f :: t) = Team.count t + 1 := by
  simp [Team.count, List.countP_cons]

/-- Any length-5 list is a five-element enumeration. -/
theorem team5_cases (t : Team) (ht : t.length = 5) :
    ∃ a b c d e, t = [a, b, c, d, e] := by
  rcases t with _ | ⟨a, t⟩
  · simp at ht
  rcases t with _ | ⟨b, t⟩
  · simp at ht
  rcases t with _ | ⟨c, t⟩
  · simp at ht
  rcases t with _ | ⟨d, t⟩
  · simp at ht
  rcases t with _ | ⟨e, t⟩
  · simp at ht
  rcases t with _ | ⟨f, t⟩
  · exact ⟨a, b, c, d, e, rfl⟩
  · simp at ht

theorem getD_set_self {α : Type} (l : List α) (i : ℕ) (a d : α)
    (h : i < l.length) : (l.set i a).getD i d = a := by
  simp [List.getD_eq_getElem?_getD, List.getElem?_set_self',
    List.getElem?_eq_getElem h]

theorem getD_set_ne {α : Type} (l : List α) (i j : ℕ) (a d : α)
    (h : i ≠ j) : (l.set i a).getD j d = l.getD j d := by
  simp [List.getD_eq_getElem?_getD, List.getElem?_set_ne h]

theorem getD_of_le {α : Type} (l : List α) (i : ℕ) (d : α)
    (h : l.length ≤ i) : l.getD i d = d := by
  simp [List.getD_eq_getElem?_getD, List.getElem?_eq_none h]

theorem mem_iff_getD (t : Team) (f : Friend) :
    some f ∈ t ↔ ∃ p, p < t.length ∧ t.getD p none = some f := by
  rw [List.mem_iff_getElem]
  constructor
  · rintro ⟨i, hi, hv⟩
    exact ⟨i, hi, by
      simp [List.getD_eq_getElem?_getD, List.getElem?_eq_getElem hi, hv]⟩
  · rintro ⟨p, hp, hv⟩
    refine ⟨p, hp, ?_⟩
    simpa [List.getD_eq_getElem?_getD, List.getElem?_eq_getElem hp] using hv

theorem count_eq_sumW_one (t : Team) :
    Team.count t = Team.sumW (fun _ => 1) t := by
  induction t with
  | nil => rfl
  | cons o t ih =>
      cases o with
      | none =>
          rw [Team.count_cons_none]
          simpa [Team.sumW, wOpt] using ih
      | some f =>
          rw [Team.count_cons_some]
          have hs : Team.sumW (fun _ => 1) (some f :: t) =
              1 + Team.sumW (fun _ => 1) t := by
            simp [Team.sumW, wOpt]
          rw [hs, ih]
          omega

set_option maxHeartbeats 3200000 in
/-- Full specification of `make_space_at` on length-5 teams: it succeeds,
preserves the length and every weight-sum, moves entries around without
inventing any, empties slot `i` exactly when it reports success, reports
failure only leaving the team untouched, and fills the slots up to `i`
only from former slots up to `i`. -/
theorem msa_spec (t : Team) (i : ℕ) (ht : t.length = 5) (hi : i < 5) :
    ∃ b t', Team.make_space_at t i = some (b, t') ∧
      t'.length = 5 ∧
      (∀ w, Team.sumW w t' = Team.sumW w t) ∧
      (∀ f, some f ∈ t' → some f ∈ t) ∧
      (b = true → t'.getD i none = none) ∧
      (b = false → t' = t) ∧
      (∀ p, p ≤ i → ∀ f, t'.getD p none = some f →
        ∃ q, q ≤ i ∧ t.getD q none = some f) := by
  obtain ⟨a0, a1, a2, a3, a4, rfl⟩ := team5_cases t ht
  interval_cases i <;>
    rcases a0 with _ | f0 <;> rcases a1 with _ | f1 <;>
    rcases a2 with _ | f2 <;> rcases a3 with _ | f3 <;>
    rcases a4 with _ | f4 <;>
      refine ⟨_, _, rfl, rfl, ?_, ?_, ?_, ?_, ?_⟩ <;>
        first
        | (intro w
           simp only [Team.sumW, wOpt, List.set_cons_succ,
             List.set_cons_zero, List.getD_cons_succ, List.getD_cons_zero,
             List.map_cons, List.map_nil, List.sum_cons, List.sum_nil]
           omega)
        | (intro f hf
           simp only [List.set_cons_succ, List.set_cons_zero,
             List.getD_cons_succ, List.getD_cons_zero, List.mem_cons,
             List.not_mem_nil, or_false] at hf ⊢
           tauto)
        | (intro h; first | rfl | exact Bool.noConfusion h)
        | (intro p hp f hf
           interval_cases p <;>
             first
             | exact Option.noConfusion hf
             | exact ⟨0, by omega, hf⟩
             | exact ⟨1, by omega, hf⟩
             | exact ⟨2, by omega, hf⟩
             | exact ⟨3, by omega, hf⟩
             | exact ⟨4, by omega, hf⟩)

theorem wOpt_some (w : Friend → ℕ) (f : Friend) : wOpt w (some f) = w f :=
  rfl

theorem sumW_set (w : Friend → ℕ) :
    ∀ (t : Team) (p : ℕ) (o : Option Friend), p < t.length →
      Team.sumW w (t.set p o) + wOpt w (t.getD p none) =
        Team.sumW w t + wOpt w o
  | [], p, o, h => by simp at h
  | a :: t, 0, o, _ => by
      simp [Team.sumW]
      omega
  | a :: t, p + 1, o, h => by
      have ih := sumW_set w t p o (by simpa using h)
      simp only [List.set_cons_succ, List.getD_cons_succ, Team.sumW,
        List.map_cons, List.sum_cons] at ih ⊢
      omega

theorem mem_swap (t : Team) (i j : ℕ) (hi : i < t.length)
    (hj : j < t.length) (hij : i ≠ j) (hnone : t.getD i none = none)
    (f : Friend) :
    (some f ∈ (t.set i (t.getD j none)).set j none) ↔ some f ∈ t := by
  rw [mem_iff_getD, mem_iff_getD]
  simp only [List.length_set]
  constructor
  · rintro ⟨p, hp, hv⟩
    by_cases hpj : p = j
    · subst hpj
      rw [getD_set_self _ _ _ _ (by simpa using hj)] at hv
      exact Option.noConfusion hv
    · rw [getD_set_ne _ _ _ _ _ fun h => hpj h.symm] at hv
      by_cases hpi : p = i
      · subst hpi
        rw [getD_set_self _ _ _ _ hi] at hv
        exact ⟨j, hj, hv⟩
      · rw [getD_set_ne _ _ _ _ _ fun h => hpi h.symm] at hv
        exact ⟨p, hp, hv⟩
  · rintro ⟨p, hp, hv⟩
    by_cases hpj : p = j
    · subst hpj
      refine ⟨i, hi, ?_⟩
      rw [getD_set_ne _ _ _ _ _ fun h => hij h.symm,
        getD_set_self _ _ _ _ hi]
      exact hv
    · by_cases hpi : p = i
      · subst hpi
        rw [hnone] at hv
        exact Option.noConfusion hv
      · refine ⟨p, hp, ?_⟩
        rw [getD_set_ne _ _ _ _ _ fun h => hpj h.symm,
          getD_set_ne _ _ _ _ _ fun h => hpi h.symm]
        exact hv

theorem skipSomeGo_ge (t : Team) :
    ∀ r i, i ≤ Team.skipSomeGo t r i
  | 0, i => le_refl i
  | r + 1, i => by
      unfold Team.skipSomeGo
      split
      · exact le_trans (Nat.le_succ i) (skipSomeGo_ge t r (i + 1))
      · exact le_refl i

theorem skipSomeGo_le (t : Team) :
    ∀ r i, Team.skipSomeGo t r i ≤ i + r
  | 0, i => by simp [Team.skipSomeGo]
  | r + 1, i => by
      unfold Team.skipSomeGo
      split
      · exact le_trans (skipSomeGo_le t r (i + 1)) (by omega)
      · omega

theorem skipSomeGo_scan (t : Team) :
    ∀ r i p, i ≤ p → p < Team.skipSomeGo t r i →
      (t.getD p none).isSome = true
  | 0, i, p, hip, hp => by
      simp only [Team.skipSomeGo] at hp
      exact absurd hp (by omega)
  | r + 1, i, p, hip, hp => by
      revert hp
      unfold Team.skipSomeGo
      split
      · next hcond =>
          intro hp
          rcases Nat.eq_or_lt_of_le hip with h | h
          · subst h; exact hcond
          · exact skipSomeGo_scan t r (i + 1) p h hp
      · intro hp
        exact absurd hp (by omega)

theorem skipSomeGo_stop (t : Team) :
    ∀ r i, Team.skipSomeGo t r i < i + r →
      (t.getD (Team.skipSomeGo t r i) none).isNone = true
  | 0, i, h => by
      simp only [Team.skipSomeGo] at h
      exact absurd h (by omega)
  | r + 1, i, h => by
      revert h
      unfold Team.skipSomeGo
      split
      · intro h
        by_cases hlt : Team.skipSomeGo t r (i + 1) < (i + 1) + r
        · exact skipSomeGo_stop t r (i + 1) hlt
        · have := skipSomeGo_le t r (i + 1)
          exact absurd h (by omega)
      · next hcond =>
          intro _
          cases hget : t.getD i none with
          | none => rfl
          | some f =>
              rw [hget] at hcond
              exact absurd rfl hcond

theorem skipNoneGo_ge (t : Team) :
    ∀ r j, j ≤ Team.skipNoneGo t r j
  | 0, j => le_refl j
  | r + 1, j => by
      unfold Team.skipNoneGo
      split
      · exact le_trans (Nat.le_succ j) (skipNoneGo_ge t r (j + 1))
      · exact le_refl j

theorem skipNoneGo_le (t : Team) :
    ∀ r j, Team.skipNoneGo t r j ≤ j + r
  | 0, j => by simp [Team.skipNoneGo]
  | r + 1, j => by
      unfold Team.skipNoneGo
      split
      · exact le_trans (skipNoneGo_le t r (j + 1)) (by omega)
      · omega

theorem skipNoneGo_scan (t : Team) :
    ∀ r j p, j ≤ p → p < Team.skipNoneGo t r j →
      (t.getD p none).isNone = true
  | 0, j, p, hip, hp => by
      simp only [Team.skipNoneGo] at hp
      exact absurd hp (by omega)
  | r + 1, j, p, hip, hp => by
      revert hp
      unfold Team.skipNoneGo
      split
      · next hcond =>
          intro hp
          rcases Nat.eq_or_lt_of_le hip with h | h
          · subst h; exact hcond
          · exact skipNoneGo_scan t r (j + 1) p h hp
      · intro hp
        exact absurd hp (by omega)

theorem skipNoneGo_stop (t : Team) :
    ∀ r j, Team.skipNoneGo t r j < j + r →
      (t.getD (Team.skipNoneGo t r j) none).isSome = true
  | 0, j, h => by
      simp only [Team.skipNoneGo] at h
      exact absurd h (by omega)
  | r + 1, j, h => by
      revert h
      unfold Team.skipNoneGo
      split
      · intro h
        by_cases hlt : Team.skipNoneGo t r (j + 1) < (j + 1) + r
        · exact skipNoneGo_stop t r (j + 1) hlt
        · have := skipNoneGo_le t r (j + 1)
          exact absurd h (by omega)
      · next hcond =>
          intro _
          cases hget : t.getD j none with
          | none =>
              rw [hget] at hcond
              exact absurd rfl hcond
          | some f => rfl

theorem skipSome_ge (t : Team) (i : ℕ) : i ≤ Team.skipSome t i :=
  skipSomeGo_ge t _ i

theorem skipSome_scan (t : Team) (i p : ℕ) (hip : i ≤ p)
    (hp : p < Team.skipSome t i) : (t.getD p none).isSome = true :=
  skipSomeGo_scan t _ i p hip hp

theorem skipSome_stop (t : Team) (i : ℕ)
    (h : Team.skipSome t i < TEAM_SIZE) :
    (t.getD (Team.skipSome t i) none).isNone = true := by
  unfold Team.skipSome at h ⊢
  by_cases hi : i ≤ TEAM_SIZE
  · refine skipSomeGo_stop t _ i ?_
    have : i + (TEAM_SIZE - i) = TEAM_SIZE := by omega
    omega
  · have h0 : TEAM_SIZE - i = 0 := by omega
    rw [h0] at h ⊢
    simp only [Team.skipSomeGo] at h ⊢
    exact absurd h (by omega)

theorem skipNone_ge (t : Team) (j : ℕ) : j ≤ Team.skipNone t j :=
  skipNoneGo_ge t _ j

theorem skipNone_scan (t : Team) (j p : ℕ) (hip : j ≤ p)
    (hp : p < Team.skipNone t j) : (t.getD p none).isNone = true :=
  skipNoneGo_scan t _ j p hip hp

theorem skipNone_stop (t : Team) (j : ℕ)
    (h : Team.skipNone t j < TEAM_SIZE) :
    (t.getD (Team.skipNone t j) none).isSome = true := by
  unfold Team.skipNone at h ⊢
  by_cases hj : j ≤ TEAM_SIZE
  · refine skipNoneGo_stop t _ j ?_
    omega
  · have h0 : TEAM_SIZE - j = 0 := by omega
    rw [h0] at h ⊢
    simp only [Team.skipNoneGo] at h ⊢
    exact absurd h (by omega)

/-- A team that is all-occupied below `k` and all-empty from `k` on is
contiguous. -/
theorem contiguousB_of_split (t : Team) (ht : t.length = 5) (k : ℕ)
    (hsome : ∀ p, p < k → (t.getD p none).isSome = true)
    (hnone : ∀ p, k ≤ p → p < 5 → t.getD p none = none) :
    Team.contiguousB t = true := by
  rw [Team.contiguousB, List.all_eq_true]
  intro p hp
  rw [ht] at hp
  simp only [List.mem_range] at hp
  by_cases hpk : p < k
  · have hs := hsome p hpk
    rw [List.getD_eq_getElem?_getD] at hs
    simp [hs]
  · have hn : t.getD (p + 1) none = none := hnone (p + 1) (by omega) (by omega)
    rw [List.getD_eq_getElem?_getD] at hn
    simp [hn]

theorem compactGo_spec :
    ∀ (fuel : ℕ) (t : Team) (i : ℕ), t.length = 5 → 6 ≤ i + fuel →
      (∀ p, p < i → (t.getD p none).isSome = true) →
      (Team.compactGo fuel t i).length = 5 ∧
        (∀ w, Team.sumW w (Team.compactGo fuel t i) = Team.sumW w t) ∧
        (∀ f, some f ∈ Team.compactGo fuel t i ↔ some f ∈ t) ∧
        Team.contiguousB (Team.compactGo fuel t i) = true
  | 0, t, i, ht, hfuel, hinv => by
      refine ⟨ht, fun w => rfl, fun f => Iff.rfl, ?_⟩
      exact contiguousB_of_split t ht 5 (fun p hp => hinv p (by omega))
        (fun p h1 h2 => absurd h1 (by omega))
  | fuel + 1, t, i, ht, hfuel, hinv => by
      simp only [Team.compactGo]
      split
      · next hstop =>
          refine ⟨ht, fun w => rfl, fun f => Iff.rfl, ?_⟩
          rcases hstop with hstop | hstop
          · refine contiguousB_of_split t ht 5 (fun p hp => ?_)
              (fun p h1 h2 => absurd h1 (by omega))
            by_cases hpi : p < i
            · exact hinv p hpi
            · refine skipSome_scan t i p (by omega) ?_
              simp only [TEAM_SIZE] at hstop
              omega
          · refine contiguousB_of_split t ht (Team.skipSome t i)
              (fun p hp => ?_) (fun p h1 h2 => ?_)
            · by_cases hpi : p < i
              · exact hinv p hpi
              · exact skipSome_scan t i p (by omega) hp
            · have hn := skipNone_scan t (Team.skipSome t i) p h1 ?_
              · simpa [Option.isNone_iff_eq_none] using hn
              · simp only [TEAM_SIZE] at hstop
                omega
      · next hgo =>
          push_neg at hgo
          obtain ⟨hi5, hj5⟩ := hgo
          simp only [TEAM_SIZE, not_le] at hi5 hj5
          have hnone_i' : t.getD (Team.skipSome t i) none = none := by
            have := skipSome_stop t i (by simpa [TEAM_SIZE] using hi5)
            simpa [Option.isNone_iff_eq_none] using this
          have hsome_j :
              (t.getD (Team.skipNone t (Team.skipSome t i)) none).isSome =
                true :=
            skipNone_stop t _ (by simpa [TEAM_SIZE] using hj5)
          have hij : Team.skipSome t i ≠ Team.skipNone t (Team.skipSome t i) := by
            intro h
            rw [← h, hnone_i'] at hsome_j
            exact Bool.noConfusion hsome_j
          have hi'j : Team.skipSome t i < Team.skipNone t (Team.skipSome t i) :=
            lt_of_le_of_ne (skipNone_ge t _) hij
          have hge : i ≤ Team.skipSome t i := skipSome_ge t i
          have hlen2 :
              ((t.set (Team.skipSome t i)
                  (t.getD (Team.skipNone t (Team.skipSome t i)) none)).set
                (Team.skipNone t (Team.skipSome t i)) none).length = 5 := by
            simp [ht]
          have hinv2 : ∀ p, p < Team.skipSome t i + 1 →
              ((((t.set (Team.skipSome t i)
                  (t.getD (Team.skipNone t (Team.skipSome t i)) none)).set
                (Team.skipNone t (Team.skipSome t i)) none)).getD p
                  none).isSome = true := by
            intro p hp
            by_cases hpi : p = Team.skipSome t i
            · subst hpi
              rw [getD_set_ne _ _ _ _ _ (by omega),
                getD_set_self _ _ _ _ (by omega)]
              exact hsome_j
            · rw [getD_set_ne _ _ _ _ _ (by omega),
                getD_set_ne _ _ _ _ _ (by omega)]
              by_cases hpi2 : p < i
              · exact hinv p hpi2
              · exact skipSome_scan t i p (by omega) (by omega)
          obtain ⟨h1, h2, h3, h4⟩ :=
            compactGo_spec fuel
              ((t.set (Team.skipSome t i)
                  (t.getD (Team.skipNone t (Team.skipSome t i)) none)).set
                (Team.skipNone t (Team.skipSome t i)) none)
              (Team.skipSome t i + 1) hlen2 (by omega) hinv2
          refine ⟨h1, fun w => ?_, fun f => ?_, h4⟩
          · rw [h2 w]
            have hs := sumW_set w
              (t.set (Team.skipSome t i)
                (t.getD (Team.skipNone t (Team.skipSome t i)) none))
              (Team.skipNone t (Team.skipSome t i)) none
              (by simp only [List.length_set]; omega)
            have hs2 := sumW_set w t (Team.skipSome t i)
              (t.getD (Team.skipNone t (Team.skipSome t i)) none) (by omega)
            rw [getD_set_ne _ _ _ _ _ (by omega)] at hs
            rw [hnone_i'] at hs2
            simp only [wOpt] at hs hs2
            omega
          · rw [h3 f]
            exact mem_swap t (Team.skipSome t i)
              (Team.skipNone t (Team.skipSome t i)) (by omega) (by omega)
              hij hnone_i' f

/-- Full specification of `compact` on length-5 teams: it preserves the
length, every weight-sum and the set of members, and its result is
contiguous. -/
theorem compact_spec (t : Team) (ht : t.length = 5) :
    (Team.compact t).length = 5 ∧
      (∀ w, Team.sumW w (Team.compact t) = Team.sumW w t) ∧
      (∀ f, some f ∈ Team.compact t ↔ some f ∈ t) ∧
      Team.contiguousB (Team.compact t) = true :=
  compactGo_spec (TEAM_SIZE + 1) t 0 ht (by simp [TEAM_SIZE]) (by omega)

/-- On a contiguous non-empty length-5 team the front slot is occupied. -/
theorem contiguous_front (t : Team) (ht : t.length = 5)
    (hc : Team.contiguousB t = true) (hne : Team.is_empty t = false) :
    (t.getD 0 none).isSome = true := by
  obtain ⟨a0, a1, a2, a3, a4, rfl⟩ := team5_cases t ht
  rcases a0 with _ | f0 <;> rcases a1 with _ | f1 <;>
    rcases a2 with _ | f2 <;> rcases a3 with _ | f3 <;>
    rcases a4 with _ | f4 <;>
      first
      | rfl
      | exact Bool.noConfusion hc
      | exact Bool.noConfusion hne

theorem rollTotalOK_ok {σ : Type} {roll : Roll σ} (h : RollTotalOK roll) :
    RollOK roll := by
  intro s lo hi hlt
  obtain ⟨v, s', hv, hr⟩ := h s lo hi
  exact ⟨v, s', hv, hr hlt⟩

theorem lenientRoll_totalOK : RollTotalOK lenientRoll := by
  intro s lo hi
  by_cases h : lo < hi
  · refine ⟨lo + s.headD 0 % (hi - lo), s.tail, by simp [lenientRoll, h], ?_⟩
    intro _
    constructor
    · omega
    · have := Nat.mod_lt (s.headD 0) (y := hi - lo) (by omega)
      omega
  · exact ⟨lo, s.tail, by simp [lenientRoll, h], by omega⟩

theorem strictRoll_ok : RollOK strictRoll := by
  intro s lo hi h
  refine ⟨lo + s.headD 0 % (hi - lo), s.tail, by simp [strictRoll, h], ?_, ?_⟩
  · omega
  · have := Nat.mod_lt (s.headD 0) (y := hi - lo) (by omega)
    omega

/-- C8: `make_space_at` never changes the number of occupied slots; when
it reports success, slot `i` is empty afterwards; when the team is
completely full it reports failure and leaves the team unchanged. -/
theorem C8_make_space_at (t : Team) (i : ℕ) (ht : t.length = 5)
    (hi : i < 5) :
    ∃ b t', Team.make_space_at t i = some (b, t') ∧
      Team.count t' = Team.count t ∧
      (b = true → t'.getD i none = none) ∧
      (Team.count t = 5 → b = false ∧ t' = t) := by
  obtain ⟨a0, a1, a2, a3, a4, rfl⟩ := team5_cases t ht
  interval_cases i <;>
    rcases a0 with _ | f0 <;> rcases a1 with _ | f1 <;>
    rcases a2 with _ | f2 <;> rcases a3 with _ | f3 <;>
    rcases a4 with _ | f4 <;>
      exact ⟨_, _, rfl, rfl,
        by intro h; first | rfl | simp at h,
        by intro h; first | exact ⟨rfl, rfl⟩ | simp at h⟩

/-- Witness for `C8_make_space_at` at a concrete team and slot. -/
theorem C8_make_space_at_witness :
    ∃ b t', Team.make_space_at
        [some antDefault, some antDefault, none, none, none] 0 =
          some (b, t') ∧
      Team.count t' =
        Team.count [some antDefault, some antDefault, none, none, none] ∧
      (b = true → t'.getD 0 none = none) ∧
      (Team.count [some antDefault, some antDefault, none, none, none] = 5 →
        b = false ∧ t' = [some antDefault, some antDefault, none, none, none]) :=
  C8_make_space_at _ 0 rfl (by decide)

/-- C5, counterexample: the pairwise combine rule is not associative in
value.  For the same-species units A = (health 5, attack 1) and
B = C = (health 1, attack 1), combining A into B and the result into C
gives health 7 and experience 1, while combining B into C and then A into
the result gives health 6 and experience 2. -/
theorem C5_combine_assoc_cex :
    Friend.combine (⟨.Ant, 1, 1, none, 0⟩ : Friend)
        (Friend.combine ⟨.Ant, 1, 1, none, 0⟩ ⟨.Ant, 1, 5, none, 0⟩) ≠
      Friend.combine
        (Friend.combine (⟨.Ant, 1, 1, none, 0⟩ : Friend) ⟨.Ant, 1, 1, none, 0⟩)
        ⟨.Ant, 1, 5, none, 0⟩ := by
  decide

/-- C5 (amended): for three same-species units with identical health and
identical attack, the final health and attack of the pairwise combines are
order-independent (the accumulated experience is not: 1 versus 2), and
concretely combining a `(health 2, attack 1)` unit into another yields
`(health 3, attack 2)` with experience 1. -/
theorem C5_combine_equal_stats (a b c : Friend)
    (h1 : a.health = b.health) (h2 : b.health = c.health)
    (h3 : a.attack = b.attack) (h4 : b.attack = c.attack) :
    (Friend.combine c (Friend.combine b a)).health =
        (Friend.combine (Friend.combine c b) a).health ∧
      (Friend.combine c (Friend.combine b a)).attack =
        (Friend.combine (Friend.combine c b) a).attack ∧
      Friend.combine antDefault antDefault = ⟨.Ant, 2, 3, none, 1⟩ := by
  refine ⟨?_, ?_, by decide⟩ <;> simp [Friend.combine] <;> omega

/-- Witness for `C5_combine_equal_stats` at three concrete equal-stat
units. -/
theorem C5_combine_equal_stats_witness :
    (Friend.combine antDefault (Friend.combine antDefault antDefault)).health =
        (Friend.combine (Friend.combine antDefault antDefault) antDefault).health ∧
      (Friend.combine antDefault (Friend.combine antDefault antDefault)).attack =
        (Friend.combine (Friend.combine antDefault antDefault) antDefault).attack ∧
      Friend.combine antDefault antDefault = ⟨.Ant, 2, 3, none, 1⟩ :=
  C5_combine_equal_stats antDefault antDefault antDefault rfl rfl rfl rfl

/-- C2, counterexample: on a `DeterministicDice` loaded from a key, a
draw whose requested range differs from the recorded one still succeeds
(the empty placeholder range `0..0` recorded at the cursor is overwritten
by the request), returning the recorded value 5 for the request `0..10`;
so a replayed draw succeeding does not imply that the requested range
equals the recorded one. -/
theorem C2_roll_cex :
    (DDice.from_key [5]).data.getD 0 (0, 0, 0) = (5, 0, 0) ∧
      DDice.roll (DDice.from_key [5]) 0 10 =
        some (5, ⟨true, 1, [(5, 0, 10)]⟩) := by
  constructor <;> decide

/-- C2 (amended): a `DeterministicDice` draw with the cursor inside the
recorded list returns the recorded value and succeeds exactly when the
requested range contains that value and either equals the recorded range
or the recorded range is empty (the key-loading placeholder, which the
draw overwrites with the request); with the cursor past the end it appends
a new decision seeded at the range minimum and returns that minimum; in
both cases the cursor advances by exactly one. -/
theorem C2_roll_spec (d : DDice) (lo hi : ℕ) :
    (∀ v rlo rhi, d.data[d.index]? = some (v, rlo, rhi) →
      (((rhi ≤ rlo ∨ (rlo = lo ∧ rhi = hi)) ∧ lo ≤ v ∧ v < hi) →
          d.roll lo hi =
            some (v, ⟨d.started, d.index + 1,
              d.data.set d.index (v, lo, hi)⟩)) ∧
        (¬ ((rhi ≤ rlo ∨ (rlo = lo ∧ rhi = hi)) ∧ lo ≤ v ∧ v < hi) →
          d.roll lo hi = none)) ∧
      (d.data[d.index]? = none →
        d.roll lo hi =
          some (lo, ⟨d.started, d.index + 1, d.data ++ [(lo, lo, hi)]⟩)) := by
  constructor
  · intro v rlo rhi hget
    constructor
    · rintro ⟨hr, hv1, hv2⟩
      by_cases he : rhi ≤ rlo
      · simp only [DDice.roll, List.get?_eq_getElem?, hget, if_pos he]
        split_ifs with h
        · rfl
        · exfalso
          apply h
          refine ⟨?_, ?_, hv1, hv2⟩ <;> trivial
      · have hr' : rlo = lo ∧ rhi = hi := by
          rcases hr with hr | hr
          · omega
          · exact hr
        simp only [DDice.roll, List.get?_eq_getElem?, hget, if_neg he]
        split_ifs with h
        · rw [hr'.1, hr'.2]
        · exact absurd ⟨hr'.1, hr'.2, hv1, hv2⟩ h
    · intro hno
      by_cases he : rhi ≤ rlo
      · simp only [DDice.roll, List.get?_eq_getElem?, hget, if_pos he]
        split_ifs with h
        · exact absurd ⟨Or.inl he, h.2.2⟩ hno
        · rfl
      · simp only [DDice.roll, List.get?_eq_getElem?, hget, if_neg he]
        split_ifs with h
        · exact absurd ⟨Or.inr ⟨h.1, h.2.1⟩, h.2.2⟩ hno
        · rfl
  · intro hget
    simp [DDice.roll, List.get?_eq_getElem?, hget]

/-- Witness for `C2_roll_spec`: a fresh replay draw appends `(2, 2..7)`
and advances the cursor, and a matching replayed draw returns the
recorded value. -/
theorem C2_roll_spec_witness :
    DDice.roll ⟨true, 0, []⟩ 2 7 = some (2, ⟨true, 1, [(2, 2, 7)]⟩) ∧
      DDice.roll ⟨true, 0, [(4, 2, 7)]⟩ 2 7 =
        some (4, ⟨true, 1, [(4, 2, 7)]⟩) :=
  ⟨(C2_roll_spec ⟨true, 0, []⟩ 2 7).2 (by decide),
   by
    have h := ((C2_roll_spec ⟨true, 0, [(4, 2, 7)]⟩ 2 7).1 4 2 7 (by decide)).1
      (by decide)
    simpa using h⟩

/-- C9, counterexample: a team of exactly 3 units, all at default stats
with no modifiers, is not classified dumb by `Team::is_dumb` (the code
requires strictly fewer than 3 members). -/
theorem C9_is_dumb_cex :
    Team.is_dumb [some antDefault, some antDefault, some antDefault,
      none, none] = false := by
  decide

/-- C9 (amended): a team of exactly 3 default-stat unmodified units is not
dumb, nor is such a team with a modifier on one unit; a dumb team always
has fewer than 3 members (e.g. two default-stat unmodified units are
dumb). -/
theorem C9_is_dumb_small_teams :
    Team.is_dumb [some antDefault, some antDefault, some antDefault,
        none, none] = false ∧
      Team.is_dumb [some { antDefault with modifier := some .Honey },
        some antDefault, some antDefault, none, none] = false ∧
      Team.is_dumb [some antDefault, some antDefault, none, none, none] = true ∧
      ∀ t : Team, Team.is_dumb t = true → Team.count t < 3 := by
  refine ⟨by decide, by decide, by decide, ?_⟩
  intro t h
  simp only [Team.is_dumb, Bool.and_eq_true, decide_eq_true_eq] at h
  exact h.1

/-- Witness for `C9_is_dumb_small_teams`: its universally quantified part
applied to a concrete dumb team. -/
theorem C9_is_dumb_small_teams_witness :
    Team.count [some antDefault, some antDefault, none, none, none] < 3 :=
  C9_is_dumb_small_teams.2.2.2 _ (by decide)

theorem lt_length_of_getD_some (t : Team) (p : ℕ) (f : Friend)
    (h : t.getD p none = some f) : p < t.length := by
  by_contra h'
  rw [getD_of_le t p none (by omega)] at h
  exact Option.noConfusion h

theorem mem_of_getD (t : Team) (p : ℕ) (f : Friend)
    (h : t.getD p none = some f) : some f ∈ t :=
  (mem_iff_getD t f).mpr ⟨p, lt_length_of_getD_some t p f h, h⟩

theorem mem_set_cases (t : Team) (p : ℕ) (v : Option Friend) (f : Friend)
    (h : some f ∈ t.set p v) : some f ∈ t ∨ some f = v := by
  rw [mem_iff_getD] at h
  obtain ⟨q, hq, hv⟩ := h
  by_cases hqp : q = p
  · subst hqp
    rw [getD_set_self _ _ _ _ (by simpa using hq)] at hv
    exact Or.inr hv.symm
  · rw [getD_set_ne _ _ _ _ _ fun h => hqp h.symm] at hv
    exact Or.inl (mem_of_getD t q f hv)

theorem buffedLE_refl (t : Team) : BuffedLE t t :=
  ⟨rfl, fun _ => Iff.rfl,
   fun p f' h => ⟨f', h, rfl, rfl, rfl, le_refl _, le_refl _⟩⟩

theorem buffedLE_trans {t₁ t₂ t₃ : Team} (h1 : BuffedLE t₁ t₂)
    (h2 : BuffedLE t₂ t₃) : BuffedLE t₁ t₃ := by
  obtain ⟨hl1, ho1, hp1⟩ := h1
  obtain ⟨hl2, ho2, hp2⟩ := h2
  refine ⟨hl2.trans hl1, fun p => (ho2 p).trans (ho1 p), fun p f' h => ?_⟩
  obtain ⟨g, hg, e1, e2, e3, e4, e5⟩ := hp2 p f' h
  obtain ⟨f, hf, d1, d2, d3, d4, d5⟩ := hp1 p g hg
  exact ⟨f, hf, d1.trans e1, d2.trans e2, d3.trans e3, d4.trans e4,
    d5.trans e5⟩

/-- Occupants of a buffed team come from occupants of the original. -/
theorem buffedLE_mem {t t' : Team} (h : BuffedLE t t') (P : Friend → Prop)
    (hP : buffClosed P) (hall : ∀ g, some g ∈ t → P g) :
    ∀ g', some g' ∈ t' → P g' := by
  intro g' hg'
  rw [mem_iff_getD] at hg'
  obtain ⟨p, hp, hv⟩ := hg'
  obtain ⟨g, hg, e1, e2, e3, e4, e5⟩ := h.2.2 p g' hv
  exact hP g g' e1 e2 e3 e4 e5 (hall g (mem_of_getD t p g hg))

theorem on_summon_spec (t : Team) (i pos : ℕ) (t' : Team)
    (h : Team.on_summon t i pos = some t') :
    BuffedLE t t' ∧ Team.sumW wM t' ≤ Team.sumW wM t + 1 := by
  rw [Team.on_summon] at h
  split at h
  · exact Option.noConfusion h
  · simp only [Option.bind_eq_bind, Option.bind_eq_some, Option.pure_def,
      Option.some_inj] at h
    obtain ⟨fi, hfi, h⟩ := h
    obtain ⟨f0, hf0, h⟩ := h
    split at h
    · simp only [hf0, Option.bind_eq_bind, Option.some_bind, Option.some_inj] at h
      have ht' : t' = t.set pos
          (some { f0 with attack := f0.attack + 1,
                          health := f0.health + 1 }) := by
        first | exact h | exact h.symm
      subst ht'
      have hpos : pos < t.length := lt_length_of_getD_some t pos f0 hf0
      constructor
      · refine ⟨by simp, fun p => ?_, fun p g hg => ?_⟩
        · by_cases hpp : p = pos
          · subst hpp
            rw [getD_set_self _ _ _ _ hpos, hf0]
            simp
          · rw [getD_set_ne _ _ _ _ _ fun e => hpp e.symm]
        · by_cases hpp : p = pos
          · subst hpp
            rw [getD_set_self _ _ _ _ hpos] at hg
            rw [Option.some_inj] at hg
            exact ⟨f0, hf0, by rw [← hg], by rw [← hg], by rw [← hg],
              by rw [← hg]; exact Nat.le_succ _,
              by rw [← hg]; exact Nat.le_succ _⟩
          · rw [getD_set_ne _ _ _ _ _ fun e => hpp e.symm] at hg
            exact ⟨g, hg, rfl, rfl, rfl, le_refl _, le_refl _⟩
      · have hs := sumW_set wM t pos
          (some { f0 with attack := f0.attack + 1, health := f0.health + 1 })
          hpos
        rw [hf0] at hs
        simp only [wOpt, wM, spawnW] at hs ⊢
        omega
    · simp only [Option.some_inj] at h
      first
      | (subst h
         exact ⟨buffedLE_refl t, by omega⟩)
      | (rw [← h]
         exact ⟨buffedLE_refl t, by omega⟩)

theorem on_summon_isSome (t : Team) (i pos : ℕ) (hip : i ≠ pos)
    (hi : (t.getD i none).isSome = true)
    (hpos : (t.getD pos none).isSome = true) :
    (Team.on_summon t i pos).isSome = true := by
  rw [Team.on_summon, if_neg hip]
  obtain ⟨fi, hfi⟩ := Option.isSome_iff_exists.mp hi
  obtain ⟨f0, hf0⟩ := Option.isSome_iff_exists.mp hpos
  simp only [hfi, hf0, Option.bind_eq_bind, Option.some_bind]
  cases fi.species <;> simp [hf0]

theorem summon_fold_spec (pos : ℕ) :
    ∀ (l : List ℕ) (t t' : Team),
      l.foldlM (fun t j =>
        if pos ≠ j ∧ (t.getD j none).isSome then Team.on_summon t j pos
        else pure t) t = some t' →
      BuffedLE t t' ∧ Team.sumW wM t' ≤ Team.sumW wM t + l.length
  | [], t, t', h => by
      simp only [List.foldlM_nil, Option.pure_def, Option.some_inj] at h
      subst h
      exact ⟨buffedLE_refl t, by simp⟩
  | j :: l, t, t', h => by
      simp only [List.foldlM_cons, Option.bind_eq_bind,
        Option.bind_eq_some] at h
      obtain ⟨t₁, h1, h2⟩ := h
      have step : BuffedLE t t₁ ∧ Team.sumW wM t₁ ≤ Team.sumW wM t + 1 := by
        split at h1
        · exact on_summon_spec t j pos t₁ h1
        · simp only [Option.pure_def, Option.some_inj] at h1
          subst h1
          exact ⟨buffedLE_refl t, by omega⟩
      obtain ⟨hb1, hm1⟩ := step
      obtain ⟨hb2, hm2⟩ := summon_fold_spec pos l t₁ t' h2
      refine ⟨buffedLE_trans hb1 hb2, ?_⟩
      simp only [List.length_cons]
      omega

theorem summon_fold_isSome (pos : ℕ) :
    ∀ (l : List ℕ) (t : Team), (t.getD pos none).isSome = true →
      (l.foldlM (fun t j =>
        if pos ≠ j ∧ (t.getD j none).isSome then Team.on_summon t j pos
        else pure t) t).isSome = true
  | [], t, hocc => by simp [List.foldlM_nil]
  | j :: l, t, hocc => by
      simp only [List.foldlM_cons, Option.bind_eq_bind]
      by_cases hc : pos ≠ j ∧ (t.getD j none).isSome
      · rw [if_pos hc]
        have hs := on_summon_isSome t j pos (fun e => hc.1 e.symm) hc.2 hocc
        obtain ⟨t₁, h1⟩ := Option.isSome_iff_exists.mp hs
        rw [h1, Option.some_bind]
        have hocc1 : (t₁.getD pos none).isSome = true := by
          have hiff := (on_summon_spec t j pos t₁ h1).1.2.1 pos
          cases hg : t₁.getD pos none with
          | none =>
              rw [hiff.mp hg] at hocc
              exact Bool.noConfusion hocc
          | some g => rfl
        exact summon_fold_isSome pos l t₁ hocc1
      · rw [if_neg hc]
        simp only [Option.pure_def, Option.some_bind]
        exact summon_fold_isSome pos l t hocc


theorem level_values (f : Friend) (lv : ℕ) (h : f.level = some lv) :
    lv = 1 ∨ lv = 3 := by
  rw [Friend.level] at h
  split_ifs at h <;> simp_all

/-- The health/spawn measure of the ghost cricket summoned at level
`lv`. -/
theorem wM_ghost (lv : ℕ) :
    wM ⟨Species.GhostCricket, lv, lv, none, 0⟩ = lv := by
  simp [wM, spawnW]

theorem wM_bee : wM ⟨Species.Bee, 1, 1, none, 0⟩ = 1 := by
  simp [wM, spawnW]

theorem on_death_part {σ : Type} (roll : Roll σ) (f : Friend) (i : ℕ)
    (t : Team) (s : σ) (t' : Team) (s' : σ)
    (h : Team.on_death roll f i t s = some (t', s'))
    (hlen : t.length = 5) (hi : i < 5) :
    t'.length = 5 ∧
      Team.sumW wM t' ≤ Team.sumW wM t + spawnW f ∧
      ((∀ q, q ≤ i → ∀ g, t.getD q none = some g → 1 ≤ g.health) →
        ∀ p, p ≤ i → ∀ g', t'.getD p none = some g' → 1 ≤ g'.health) ∧
      (∀ P, buffClosed P →
        (∀ lv, lv = 1 ∨ lv = 3 → P ⟨Species.GhostCricket, lv, lv, none, 0⟩) →
        P ⟨Species.Bee, 1, 1, none, 0⟩ →
        (∀ g, some g ∈ t → P g) → ∀ g', some g' ∈ t' → P g') := by
  rw [Team.on_death] at h
  split at h
  · exact Option.noConfusion h
  · simp only [Option.bind_eq_bind, Option.bind_eq_some] at h
    obtain ⟨⟨t₁, s₁⟩, hsp, hhon⟩ := h
    have hvac : t.getD i none = none := by
      rename_i hcond
      exact Option.not_isSome_iff_eq_none.mp hcond
    have HS : t₁.length = 5 ∧
        Team.sumW wM t₁ ≤ Team.sumW wM t +
          ((if f.species = Species.Cricket then 8 else 0) +
            (if f.species = Species.Ant then 8 else 0)) ∧
        ((∀ q, q ≤ i → ∀ g, t.getD q none = some g → 1 ≤ g.health) →
          ∀ p, p ≤ i → ∀ g', t₁.getD p none = some g' → 1 ≤ g'.health) ∧
        (∀ P, buffClosed P →
          (∀ lv, lv = 1 ∨ lv = 3 →
            P ⟨Species.GhostCricket, lv, lv, none, 0⟩) →
          (∀ g, some g ∈ t → P g) → ∀ g', some g' ∈ t₁ → P g') := by
      cases hfs : f.species
      case Cricket =>
        simp only [hfs, Option.bind_eq_bind, Option.bind_eq_some,
          Option.pure_def, Option.some_inj, Prod.mk.injEq] at hsp
        obtain ⟨lv, hlv, t₂, hfold, heq1, heq2⟩ := hsp
        subst heq1
        have hlv13 := level_values f lv hlv
        have hlv1 : 1 ≤ lv := by omega
        have hglen : (t.set i (some ⟨Species.GhostCricket, lv, lv, none,
            0⟩)).length = 5 := by simp [hlen]
        obtain ⟨hBL, hBsum⟩ := summon_fold_spec i _ _ _ hfold
        have hsum0 := sumW_set wM t i
          (some ⟨Species.GhostCricket, lv, lv, none, 0⟩) (by omega)
        rw [hvac] at hsum0
        simp only [wOpt, wM_ghost] at hsum0
        refine ⟨by rw [hBL.1, hglen], ?_, ?_, ?_⟩
        · have e1 : (if Species.Cricket = Species.Cricket then (8 : ℕ)
              else 0) = 8 := by decide
          have e2 : (if Species.Cricket = Species.Ant then (8 : ℕ)
              else 0) = 0 := by decide
          simp only [List.length_range, TEAM_SIZE] at hBsum
          rw [e1, e2]
          omega
        · intro hold p hp g' hg'
          obtain ⟨g, hg, e1, e2, e3, e4, e5⟩ := hBL.2.2 p g' hg'
          by_cases hpi : p = i
          · subst hpi
            rw [getD_set_self _ _ _ _ (by omega)] at hg
            rw [Option.some_inj] at hg
            have : g.health = lv := by rw [← hg]
            omega
          · rw [getD_set_ne _ _ _ _ _ fun e => hpi e.symm] at hg
            have := hold p hp g hg
            omega
        · intro P hP hghost hall
          refine buffedLE_mem hBL P hP ?_
          intro g hg
          rcases mem_set_cases t i _ g hg with hmem | heq
          · exact hall g hmem
          · rw [Option.some_inj] at heq
            rw [heq]
            exact hghost lv hlv13
      case Ant =>
        simp only [hfs, Option.bind_eq_bind, Option.bind_eq_some,
          Option.pure_def, Option.some_inj, Prod.mk.injEq] at hsp
        obtain ⟨⟨jo, s₂⟩, hpick, hrest⟩ := hsp
        cases jo with
        | none =>
            simp only [Option.some_inj, Prod.mk.injEq] at hrest
            obtain ⟨heq1, heq2⟩ := hrest
            subst heq1
            refine ⟨hlen, by omega, fun hold p hp g' hg' => hold p hp g' hg',
              fun P hP hghost hall g' hg' => hall g' hg'⟩
        | some j =>
            simp only [Option.bind_eq_bind, Option.bind_eq_some,
              Option.pure_def, Option.some_inj, Prod.mk.injEq] at hrest
            obtain ⟨g, hg, lv, hlv, heq1, heq2⟩ := hrest
            subst heq1
            have hlv13 := level_values f lv hlv
            have hj : j < t.length := lt_length_of_getD_some t j g hg
            have hsum0 := sumW_set wM t j
              (some { g with attack := g.attack + lv * 2,
                             health := g.health + lv }) hj
            rw [hg] at hsum0
            have hwm :
                wM { g with attack := g.attack + lv * 2, health := g.health + lv } = wM g + lv := by
              simp only [wM, spawnW]
              omega
            simp only [wOpt, hwm] at hsum0
            have e1 : (if Species.Ant = Species.Cricket then (8 : ℕ)
                else 0) = 0 := by decide
            have e2 : (if Species.Ant = Species.Ant then (8 : ℕ)
                else 0) = 8 := by decide
            refine ⟨by simp [hlen], by rw [e1, e2]; omega, ?_, ?_⟩
            · intro hold p hp g' hg'
              by_cases hpj : p = j
              · subst hpj
                rw [getD_set_self _ _ _ _ hj] at hg'
                rw [Option.some_inj] at hg'
                have : g'.health = g.health + lv := by rw [← hg']
                omega
              · rw [getD_set_ne _ _ _ _ _ fun e => hpj e.symm] at hg'
                exact hold p hp g' hg'
            · intro P hP hghost hall g' hg'
              rcases mem_set_cases t j _ g' hg' with hmem | heq
              · exact hall g' hmem
              · rw [Option.some_inj] at heq
                rw [heq]
                refine hP g _ rfl rfl rfl (by simp) (by simp)
                  (hall g (mem_of_getD t j g hg))
      all_goals
        (simp only [hfs, Option.pure_def, Option.some_inj,
           Prod.mk.injEq] at hsp
         obtain ⟨heq1, heq2⟩ := hsp
         subst heq1
         exact ⟨hlen, by omega, fun hold p hp g' hg' => hold p hp g' hg',
           fun P hP hghost hall g' hg' => hall g' hg'⟩)
    obtain ⟨hlen1, hsum1, hpos1, hall1⟩ := HS
    have HH : t'.length = 5 ∧
        Team.sumW wM t' ≤ Team.sumW wM t₁ +
          (if f.modifier = some Modifier.Honey then 8 else 0) ∧
        ((∀ q, q ≤ i → ∀ g, t₁.getD q none = some g → 1 ≤ g.health) →
          ∀ p, p ≤ i → ∀ g', t'.getD p none = some g' → 1 ≤ g'.health) ∧
        (∀ P, buffClosed P →
          P ⟨Species.Bee, 1, 1, none, 0⟩ →
          (∀ g, some g ∈ t₁ → P g) → ∀ g', some g' ∈ t' → P g') := by
      cases hfm : f.modifier with
      | none =>
          simp only [hfm, Option.pure_def, Option.some_inj,
            Prod.mk.injEq] at hhon
          obtain ⟨heq1, heq2⟩ := hhon
          subst heq1
          exact ⟨hlen1, by omega, fun hold p hp g' hg' => hold p hp g' hg',
            fun P hP hbee hall g' hg' => hall g' hg'⟩
      | some m =>
          cases m
          simp only [hfm, Option.bind_eq_bind, Option.bind_eq_some] at hhon
          obtain ⟨⟨ok, tm⟩, hmsa, hrest⟩ := hhon
          obtain ⟨b0, tm0, hmsa0, hmlen, hmsum, hmmem, hmtrue, hmfalse,
            hmpre⟩ := msa_spec t₁ i hlen1 hi
          rw [hmsa0, Option.some_inj, Prod.mk.injEq] at hmsa
          obtain ⟨hok, htm⟩ := hmsa
          subst hok
          subst htm
          split at hrest
          · -- ok = true: bee summoned
            rename_i hoktrue
            simp only [Option.bind_eq_bind, Option.bind_eq_some,
              Option.pure_def, Option.some_inj, Prod.mk.injEq] at hrest
            obtain ⟨t₂, hfold, heq1, heq2⟩ := hrest
            subst heq1
            have hvacm : tm0.getD i none = none := hmtrue hoktrue
            obtain ⟨hBL, hBsum⟩ := summon_fold_spec i _ _ _ hfold
            have hsum0 := sumW_set wM tm0 i
              (some ⟨Species.Bee, 1, 1, none, 0⟩) (by omega)
            rw [hvacm] at hsum0
            simp only [wOpt, wM_bee] at hsum0
            refine ⟨by rw [hBL.1]; simp [hmlen], ?_, ?_, ?_⟩
            · have e3 : (if (some Modifier.Honey : Option Modifier) =
                  some Modifier.Honey then (8 : ℕ) else 0) = 8 := by decide
              have hms := hmsum wM
              simp only [List.length_range, TEAM_SIZE] at hBsum
              rw [e3]
              omega
            · intro hold p hp g' hg'
              obtain ⟨g, hg, e1, e2, e3, e4, e5⟩ := hBL.2.2 p g' hg'
              by_cases hpi : p = i
              · subst hpi
                rw [getD_set_self _ _ _ _ (by omega)] at hg
                rw [Option.some_inj] at hg
                have : g.health = 1 := by rw [← hg]
                omega
              · rw [getD_set_ne _ _ _ _ _ fun e => hpi e.symm] at hg
                obtain ⟨q, hq, hgq⟩ := hmpre p (by omega) g hg
                have := hold q hq g hgq
                omega
            · intro P hP hbee hall
              refine buffedLE_mem hBL P hP ?_
              intro g hg
              rcases mem_set_cases tm0 i _ g hg with hmem | heq
              · exact hall g (hmmem g hmem)
              · rw [Option.some_inj] at heq
                rw [heq]
                exact hbee
          · -- ok = false: no room, team unchanged
            rename_i hokfalse
            have hokf : b0 = false := by
              cases b0
              · rfl
              · exact absurd rfl hokfalse
            have htm1 : tm0 = t₁ := hmfalse hokf
            subst htm1
            simp only [Option.pure_def, Option.some_inj,
              Prod.mk.injEq] at hrest
            obtain ⟨heq1, heq2⟩ := hrest
            subst heq1
            exact ⟨hlen1, by omega, fun hold p hp g' hg' => hold p hp g' hg',
              fun P hP hbee hall g' hg' => hall g' hg'⟩
    obtain ⟨hlen2, hsum2, hpos2, hall2⟩ := HH
    refine ⟨hlen2, ?_, ?_, ?_⟩
    · have : spawnW f = (if f.species = Species.Cricket then 8 else 0) +
          (if f.species = Species.Ant then 8 else 0) +
          (if f.modifier = some Modifier.Honey then 8 else 0) := rfl
      omega
    · intro hold
      exact hpos2 (hpos1 hold)
    · intro P hP hghost hbee hall
      exact hall2 P hP hbee (hall1 P hP hghost hall)


theorem level_isSome (f : Friend) (hexp : f.exp ≤ 6) :
    ∃ lv, f.level = some lv := by
  rw [Friend.level]
  split_ifs with h1 h2 h3
  · exact ⟨1, rfl⟩
  · exact ⟨1, rfl⟩
  · exact ⟨3, rfl⟩
  · omega

theorem trueIdxsAux_length (mask : List Bool) :
    ∀ k, (trueIdxsAux mask k).length = mask.countP id := by
  induction mask with
  | nil => intro k; rfl
  | cons b rest ih =>
      intro k
      cases b <;> simp [trueIdxsAux, List.countP_cons, ih]

theorem trueIdxsAux_mem (mask : List Bool) :
    ∀ k x, x ∈ trueIdxsAux mask k →
      k ≤ x ∧ x - k < mask.length ∧ mask.getD (x - k) false = true := by
  induction mask with
  | nil => intro k x hx; exact absurd hx (List.not_mem_nil x)
  | cons b rest ih =>
      intro k x hx
      cases b with
      | false =>
          simp only [trueIdxsAux] at hx
          obtain ⟨h1, h2, h3⟩ := ih (k + 1) x hx
          have hxk : x - k = (x - (k + 1)) + 1 := by omega
          rw [hxk]
          exact ⟨by omega, by simp; omega, by simpa using h3⟩
      | true =>
          simp only [trueIdxsAux, if_true, List.mem_cons] at hx
          rcases hx with rfl | hx
          · simp
          · obtain ⟨h1, h2, h3⟩ := ih (k + 1) x hx
            have hxk : x - k = (x - (k + 1)) + 1 := by omega
            rw [hxk]
            exact ⟨by omega, by simp; omega, by simpa using h3⟩

theorem nthTrue_spec (mask : List Bool) (j : ℕ)
    (hj : j < mask.countP id) :
    ∃ k, nthTrue mask j = some k ∧ mask.getD k false = true ∧
      k < mask.length := by
  have hlen : j < (trueIdxs mask).length := by
    rw [trueIdxs, trueIdxsAux_length]
    exact hj
  obtain ⟨k, hk⟩ := Option.isSome_iff_exists.mp
    (by rw [List.get?_eq_getElem?, List.getElem?_eq_getElem hlen]; rfl :
      ((trueIdxs mask).get? j).isSome = true)
  have hkm : k ∈ trueIdxs mask := by
    have := List.get?_mem hk
    exact this
  obtain ⟨h1, h2, h3⟩ := trueIdxsAux_mem mask 0 k hkm
  refine ⟨k, hk, ?_, ?_⟩
  · simpa using h3
  · simpa using h2

theorem countP_set_false :
    ∀ (mask : List Bool) (k : ℕ), k < mask.length →
      mask.getD k false = true →
      (mask.set k false).countP id + 1 = mask.countP id := by
  intro mask
  induction mask with
  | nil => intro k hk; simp at hk
  | cons b rest ih =>
      intro k hk hv
      cases k with
      | zero =>
          simp only [List.getD_cons_zero] at hv
          subst hv
          simp [List.countP_cons]
      | succ k =>
          simp only [List.getD_cons_succ] at hv
          have := ih k (by simpa using hk) hv
          cases b <;> simp [List.countP_cons, List.set_cons_succ] <;> omega

theorem getD_set_false {mask : List Bool} {k k' : ℕ}
    (hk : k < mask.length)
    (h : (mask.set k false).getD k' false = true) :
    mask.getD k' false = true := by
  by_cases hkk : k = k'
  · subst hkk
    rw [getD_set_self _ _ _ _ hk] at h
    exact absurd h (by simp)
  · rw [getD_set_ne _ _ _ _ _ hkk] at h
    exact h

theorem pickGo_spec {σ : Type} (roll : Roll σ) (hroll : RollOK roll) :
    ∀ (m c : ℕ) (mask : List Bool) (s : σ), c = mask.countP id → m ≤ c →
      ∃ ks s', pickGo roll m c mask s = some (ks, s') ∧
        ∀ k ∈ ks, mask.getD k false = true ∧ k < mask.length
  | 0, c, mask, s, hc, hm =>
      ⟨[], s, rfl, fun k hk => absurd hk (List.not_mem_nil k)⟩
  | m + 1, c, mask, s, hc, hm => by
      obtain ⟨j, s₁, hroll1, hj1, hj2⟩ := hroll s 0 c (by omega)
      obtain ⟨k, hk, hkt, hklt⟩ := nthTrue_spec mask j (by omega)
      have hcount := countP_set_false mask k hklt hkt
      obtain ⟨ks, s₂, hgo, hks⟩ := pickGo_spec roll hroll m (c - 1)
        (mask.set k false) s₁ (by omega) (by omega)
      refine ⟨k :: ks, s₂, ?_, ?_⟩
      · rw [pickGo, hroll1]
        simp only [Option.some_bind, Option.bind_eq_bind]
        rw [hk]
        simp only [Option.some_bind]
        rw [hgo]
        rfl
      · intro k' hk'
        rcases List.mem_cons.mp hk' with rfl | hk'
        · exact ⟨hkt, hklt⟩
        · obtain ⟨h1, h2⟩ := hks k' hk'
          exact ⟨getD_set_false hklt h1, by simpa using h2⟩

theorem mask_getD {α : Type} :
    ∀ (vs : List (Option α)) (k : ℕ),
      (vs.map Option.isSome).getD k false = (vs.getD k none).isSome := by
  intro vs
  induction vs with
  | nil => intro k; rfl
  | cons o rest ih =>
      intro k
      cases k with
      | zero => cases o <;> rfl
      | succ k => simpa using ih k

theorem pick_some_spec {σ α : Type} (roll : Roll σ) (hroll : RollOK roll)
    (n : ℕ) (vs : List (Option α)) (s : σ) :
    ∃ ks s', pick_some roll n vs s = some (ks, s') ∧
      ∀ k ∈ ks, (vs.getD k none).isSome = true ∧ k < vs.length := by
  obtain ⟨ks, s', hgo, hks⟩ := pickGo_spec roll hroll
    (min n ((vs.map Option.isSome).countP id))
    ((vs.map Option.isSome).countP id) (vs.map Option.isSome) s rfl
    (min_le_right _ _)
  refine ⟨ks, s', hgo, fun k hk => ?_⟩
  obtain ⟨h1, h2⟩ := hks k hk
  rw [mask_getD] at h1
  exact ⟨h1, by simpa using h2⟩

theorem pick_one_spec {σ α : Type} (roll : Roll σ) (hroll : RollOK roll)
    (vs : List (Option α)) (s : σ) :
    ∃ jo s', pick_one roll vs s = some (jo, s') ∧
      ∀ j, jo = some j → (vs.getD j none).isSome = true ∧ j < vs.length := by
  obtain ⟨ks, s', hgo, hks⟩ := pick_some_spec roll hroll 1 vs s
  refine ⟨ks.head?, s', ?_, fun j hj => ?_⟩
  · rw [pick_one, hgo]
    rfl
  · exact hks j (by
      cases ks with
      | nil => exact Option.noConfusion hj
      | cons a l =>
          simp only [List.head?_cons, Option.some_inj] at hj
          rw [hj] at *
          exact List.mem_cons_self j l)


theorem isSome_bind_pred {α β : Type} {x : Option α} {k : α → Option β}
    (hx : x.isSome = true) (hk : ∀ a, x = some a → (k a).isSome = true) :
    (x >>= k).isSome = true := by
  obtain ⟨a, ha⟩ := Option.isSome_iff_exists.mp hx
  rw [ha]
  exact hk a ha

theorem isSome_bindo_pred {α β : Type} {x : Option α} {k : α → Option β}
    (hx : x.isSome = true) (hk : ∀ a, x = some a → (k a).isSome = true) :
    (x.bind k).isSome = true := by
  obtain ⟨a, ha⟩ := Option.isSome_iff_exists.mp hx
  rw [ha]
  exact hk a ha

/-- The Honey-modifier half of `Team::on_death` always succeeds on a
length-5 team. -/
theorem honey_part_isSome {σ : Type} (m : Option Modifier) (i : ℕ)
    (t₁ : Team) (s₁ : σ) (hlen1 : t₁.length = 5) (hi : i < 5) :
    (match m with
      | some Modifier.Honey => do
          let bee : Friend := ⟨Species.Bee, 1, 1, none, 0⟩
          let (ok, t') ← Team.make_space_at t₁ i
          if ok then do
            let t'' ← (List.range TEAM_SIZE).foldlM
              (fun t j =>
                if i ≠ j ∧ (t.getD j none).isSome then Team.on_summon t j i
                else pure t) (t'.set i (some bee))
            pure (t'', s₁)
          else pure (t', s₁)
      | none => pure (t₁, s₁) : Option (Team × σ)).isSome = true := by
  cases m with
  | none => rfl
  | some mm =>
      cases mm
      obtain ⟨b, t₂, hmsa, hlen2, _, _, hbt, _, _⟩ := msa_spec t₁ i hlen1 hi
      rw [hmsa]
      cases b with
      | true =>
          simp only [Option.bind_eq_bind, Option.some_bind]
          rw [if_pos trivial]
          refine isSome_bindo_pred
            (summon_fold_isSome i (List.range TEAM_SIZE) _ ?_)
            (fun a ha => rfl)
          rw [getD_set_self _ _ _ _ (by rw [hlen2]; exact hi)]
          rfl
      | false =>
          simp only [Option.bind_eq_bind, Option.some_bind]
          rw [if_neg (by simp)]
          rfl

theorem on_death_isSome {σ : Type} (roll : Roll σ) (hroll : RollOK roll)
    (f : Friend) (i : ℕ) (t : Team) (s : σ)
    (hlen : t.length = 5) (hi : i < 5)
    (hvac : t.getD i none = none) (hexp : f.exp ≤ 6) :
    (Team.on_death roll f i t s).isSome = true := by
  rw [Team.on_death, if_neg (by rw [hvac]; simp)]
  refine isSome_bind_pred ?hx ?hk
  case hx =>
    cases hfs : f.species
    case Cricket =>
      obtain ⟨lv, hlv⟩ := level_isSome f hexp
      simp only [hlv, Option.bind_eq_bind, Option.some_bind]
      refine isSome_bindo_pred
        (summon_fold_isSome i (List.range TEAM_SIZE) _ ?_)
        (fun a ha => rfl)
      rw [getD_set_self _ _ _ _ (by rw [hlen]; exact hi)]
      rfl
    case Ant =>
      obtain ⟨jo, s₂, hpick, hval⟩ := pick_one_spec roll hroll t s
      simp only [Team.random_friend, hpick, Option.bind_eq_bind,
        Option.some_bind]
      cases jo with
      | none => rfl
      | some j =>
          obtain ⟨hjs, hjlt⟩ := hval j rfl
          obtain ⟨g, hg⟩ := Option.isSome_iff_exists.mp hjs
          obtain ⟨lv, hlv⟩ := level_isSome f hexp
          simp only [hg, hlv, Option.bind_eq_bind, Option.some_bind]
          rfl
    all_goals rfl
  case hk =>
    rintro ⟨t₁, s₁⟩ ha
    have hlen1 : t₁.length = 5 := by
      cases hfs : f.species
      case Cricket =>
        simp only [hfs, Option.bind_eq_bind, Option.bind_eq_some,
          Option.pure_def, Option.some_inj, Prod.mk.injEq] at ha
        obtain ⟨lv, hlv, t₂, hfold, heq1, heq2⟩ := ha
        subst heq1
        have hBL := (summon_fold_spec i _ _ _ hfold).1
        rw [hBL.1]
        simp [hlen]
      case Ant =>
        simp only [hfs, Option.bind_eq_bind, Option.bind_eq_some,
          Option.pure_def, Option.some_inj, Prod.mk.injEq] at ha
        obtain ⟨⟨jo, s₂⟩, hpick, hrest⟩ := ha
        cases jo with
        | none =>
            simp only [Option.some_inj, Prod.mk.injEq] at hrest
            obtain ⟨heq1, heq2⟩ := hrest
            subst heq1
            exact hlen
        | some j =>
            simp only [Option.bind_eq_bind, Option.bind_eq_some,
              Option.pure_def, Option.some_inj, Prod.mk.injEq] at hrest
            obtain ⟨g, hg, lv, hlv, heq1, heq2⟩ := hrest
            subst heq1
            simp [hlen]
      all_goals
        (simp only [hfs, Option.pure_def, Option.some_inj,
           Prod.mk.injEq] at ha
         obtain ⟨heq1, heq2⟩ := ha
         subst heq1
         exact hlen)
    exact honey_part_isSome f.modifier i t₁ s₁ hlen1 hi


theorem range'_cons (s n : ℕ) :
    List.range' s (n + 1) = s :: List.range' (s + 1) n := rfl

/-- Partial correctness of the scanning fold inside `Team::remove_dead`:
the team keeps length 5, the `wM` measure does not grow, every surviving
occupant has positive health, `changed = false` means nothing happened,
and buff-closed properties of the members are preserved. -/
theorem rd_fold {σ : Type} (roll : Roll σ) :
    ∀ (m n : ℕ) (t : Team) (s : σ) (ch : Bool) (out : Team × σ × Bool),
      n + m = 5 → t.length = 5 →
      (∀ q g, q < n → t.getD q none = some g → 1 ≤ g.health) →
      (List.range' n m).foldlM
        (fun (acc : Team × σ × Bool) i => do
          let (t, s, changed) := acc
          match t.getD i none with
          | some f =>
              if f.health = 0 then do
                let (t', s') ← Team.on_death roll f i (t.set i none) s
                pure (t', s', true)
              else pure (t, s, changed)
          | none => pure (t, s, changed)) (t, s, ch) = some out →
      out.1.length = 5 ∧
        Team.sumW wM out.1 ≤ Team.sumW wM t ∧
        (∀ q g, out.1.getD q none = some g → 1 ≤ g.health) ∧
        (out.2.2 = false → out.1 = t ∧ out.2.1 = s ∧ ch = false) ∧
        (∀ P, buffClosed P →
          (∀ lv, lv = 1 ∨ lv = 3 → P ⟨Species.GhostCricket, lv, lv, none, 0⟩) →
          P ⟨Species.Bee, 1, 1, none, 0⟩ →
          (∀ g, some g ∈ t → P g) → ∀ g', some g' ∈ out.1 → P g')
  | 0, n, t, s, ch, out, hnm, hlen, hinv, h => by
      have h0 : List.range' n 0 = [] := rfl
      rw [h0, List.foldlM_nil] at h
      simp only [Option.pure_def, Option.some_inj] at h
      subst h
      refine ⟨hlen, le_refl _, ?_, ?_, ?_⟩
      · intro q g hq
        have h1 := lt_length_of_getD_some t q g hq
        exact hinv q g (by omega) hq
      · intro hch
        exact ⟨rfl, rfl, hch⟩
      · intro P hP hghost hbee hall g' hg'
        exact hall g' hg'
  | m + 1, n, t, s, ch, out, hnm, hlen, hinv, h => by
      rw [range'_cons, List.foldlM_cons] at h
      cases hg : t.getD n none with
      | none =>
          simp only [hg, Option.bind_eq_bind, Option.pure_def,
            Option.some_bind] at h
          exact rd_fold roll m (n + 1) t s ch out (by omega) hlen
            (fun q g0 hq hqg => by
              by_cases hqn : q = n
              · rw [hqn, hg] at hqg
                exact Option.noConfusion hqg
              · exact hinv q g0 (by omega) hqg)
            h
      | some g =>
          simp only [hg, Option.bind_eq_bind, Option.pure_def] at h
          by_cases hh : g.health = 0
          · rw [if_pos hh] at h
            simp only [Option.bind_eq_bind, Option.bind_eq_some,
              Option.pure_def] at h
            obtain ⟨b', ⟨⟨t₁, s₁⟩, hod, hb'⟩, hrest⟩ := h
            simp only [Option.pure_def, Option.some_inj] at hb'
            have hb2 : b' = (t₁, s₁, true) := by
              first | exact hb'.symm | exact hb'
            subst hb2
            have hnlt : n < 5 := by omega
            have hntl : n < t.length := by omega
            have hsetlen : (t.set n none).length = 5 := by simp [hlen]
            obtain ⟨hlen1, hsum1, hpos1, hall1⟩ :=
              on_death_part roll g n (t.set n none) s t₁ s₁ hod hsetlen hnlt
            have hinv1 : ∀ q g0, q < n + 1 → t₁.getD q none = some g0 →
                1 ≤ g0.health := by
              have hpre : ∀ q, q ≤ n → ∀ g0,
                  (t.set n none).getD q none = some g0 → 1 ≤ g0.health := by
                intro q hq g0 hq0
                by_cases hqn : q = n
                · subst hqn
                  rw [getD_set_self _ _ _ _ hntl] at hq0
                  exact Option.noConfusion hq0
                · rw [getD_set_ne _ _ _ _ _ (fun e => hqn e.symm)] at hq0
                  exact hinv q g0 (by omega) hq0
              intro q g0 hq hq0
              exact hpos1 hpre q (by omega) g0 hq0
            obtain ⟨ihlen, ihsum, ihpos, ihch, ihall⟩ :=
              rd_fold roll m (n + 1) t₁ s₁ true out (by omega) hlen1 hinv1
                hrest
            have hsum0 := sumW_set wM t n none hntl
            rw [hg] at hsum0
            simp only [wOpt] at hsum0
            have hwmg : wM g = spawnW g := by simp [wM, hh]
            refine ⟨ihlen, by omega, ihpos, ?_, ?_⟩
            · intro hch
              obtain ⟨e1, e2, e3⟩ := ihch hch
              exact absurd e3 (by simp)
            · intro P hP hghost hbee hall
              refine ihall P hP hghost hbee ?_
              intro g0 hg0
              refine hall1 P hP hghost hbee ?_ g0 hg0
              intro g1 hg1
              rcases mem_set_cases t n none g1 hg1 with hm | hm
              · exact hall g1 hm
              · exact Option.noConfusion hm
          · rw [if_neg hh] at h
            simp only [Option.pure_def, Option.some_bind] at h
            exact rd_fold roll m (n + 1) t s ch out (by omega) hlen
              (fun q g0 hq hqg => by
                by_cases hqn : q = n
                · rw [hqn, hg] at hqg
                  rw [Option.some_inj] at hqg
                  have heq : g = g0 := hqg
                  subst heq
                  omega
                · exact hinv q g0 (by omega) hqg)
              h


/-- The scanning fold inside `Team::remove_dead` always succeeds on a
length-5 team whose members all have at most 6 experience (so that
`Friend::level` cannot panic). -/
theorem rd_fold_isSome {σ : Type} (roll : Roll σ) (hroll : RollOK roll) :
    ∀ (m n : ℕ) (t : Team) (s : σ) (ch : Bool),
      n + m = 5 → t.length = 5 →
      (∀ g, some g ∈ t → g.exp ≤ 6) →
      ((List.range' n m).foldlM
        (fun (acc : Team × σ × Bool) i => do
          let (t, s, changed) := acc
          match t.getD i none with
          | some f =>
              if f.health = 0 then do
                let (t', s') ← Team.on_death roll f i (t.set i none) s
                pure (t', s', true)
              else pure (t, s, changed)
          | none => pure (t, s, changed)) (t, s, ch)).isSome = true
  | 0, n, t, s, ch, hnm, hlen, hexp => by
      have h0 : List.range' n 0 = [] := rfl
      rw [h0, List.foldlM_nil]
      rfl
  | m + 1, n, t, s, ch, hnm, hlen, hexp => by
      rw [range'_cons, List.foldlM_cons]
      cases hg : t.getD n none with
      | none =>
          simp only [hg, Option.bind_eq_bind, Option.pure_def,
            Option.some_bind]
          exact rd_fold_isSome roll hroll m (n + 1) t s ch (by omega) hlen
            hexp
      | some g =>
          simp only [hg, Option.bind_eq_bind, Option.pure_def]
          by_cases hh : g.health = 0
          · rw [if_pos hh]
            have hnlt : n < 5 := by omega
            have hntl : n < t.length := by omega
            have hsetlen : (t.set n none).length = 5 := by simp [hlen]
            have hvac : (t.set n none).getD n none = none :=
              getD_set_self _ _ _ _ hntl
            have hgexp : g.exp ≤ 6 := hexp g (mem_of_getD t n g hg)
            have hods := on_death_isSome roll hroll g n (t.set n none) s
              hsetlen hnlt hvac hgexp
            obtain ⟨⟨t₁, s₁⟩, hod⟩ := Option.isSome_iff_exists.mp hods
            rw [hod]
            simp only [Option.some_bind]
            obtain ⟨hlen1, hsum1, hpos1, hall1⟩ :=
              on_death_part roll g n (t.set n none) s t₁ s₁ hod hsetlen hnlt
            have hexp1 : ∀ g0, some g0 ∈ t₁ → g0.exp ≤ 6 := by
              refine hall1 (fun g0 => g0.exp ≤ 6)
                (fun f f' hs hm he hhh ha hp => by
                  show f'.exp ≤ 6
                  rw [← he]
                  exact hp)
                (fun lv _ => Nat.zero_le 6) (Nat.zero_le 6) ?_
              intro g1 hg1
              rcases mem_set_cases t n none g1 hg1 with hm | hm
              · exact hexp g1 hm
              · exact Option.noConfusion hm
            exact rd_fold_isSome roll hroll m (n + 1) t₁ s₁ true (by omega)
              hlen1 hexp1
          · rw [if_neg hh]
            simp only [Option.pure_def, Option.some_bind]
            exact rd_fold_isSome roll hroll m (n + 1) t s ch (by omega) hlen
              hexp

/-- Partial correctness of `Team::remove_dead`: the team keeps length 5,
the `wM` measure does not grow, every surviving occupant has positive
health, the result is either untouched or compacted (hence contiguous),
and buff-closed member properties are preserved. -/
theorem remove_dead_part {σ : Type} (roll : Roll σ) (t : Team) (s : σ)
    (t' : Team) (s' : σ)
    (h : Team.remove_dead roll t s = some (t', s')) (hlen : t.length = 5) :
    t'.length = 5 ∧
      Team.sumW wM t' ≤ Team.sumW wM t ∧
      (∀ q g, t'.getD q none = some g → 1 ≤ g.health) ∧
      ((t' = t ∧ s' = s) ∨ t'.contiguousB = true) ∧
      (∀ P, buffClosed P →
        (∀ lv, lv = 1 ∨ lv = 3 → P ⟨Species.GhostCricket, lv, lv, none, 0⟩) →
        P ⟨Species.Bee, 1, 1, none, 0⟩ →
        (∀ g, some g ∈ t → P g) → ∀ g', some g' ∈ t' → P g') := by
  rw [Team.remove_dead] at h
  simp only [Option.bind_eq_bind, Option.bind_eq_some] at h
  obtain ⟨⟨t₁, s₁, ch⟩, hfold, heq⟩ := h
  simp only [Option.pure_def, Option.some_inj] at heq
  have hpair : ((if ch = true then Team.compact t₁ else t₁), s₁) =
      (t', s') := by
    first | exact heq | exact heq.symm
  have ht' : t' = if ch = true then Team.compact t₁ else t₁ :=
    (congrArg Prod.fst hpair).symm
  have hs' : s' = s₁ := (congrArg Prod.snd hpair).symm
  have hr5 : List.range TEAM_SIZE = List.range' 0 5 := by
    rw [List.range_eq_range', TEAM_SIZE]
  rw [hr5] at hfold
  obtain ⟨flen, fsum, fpos, fch, fall⟩ :=
    rd_fold roll 5 0 t s false (t₁, s₁, ch) (by omega) hlen
      (fun q g hq hqg => absurd hq (by omega)) hfold
  obtain ⟨clen, csum, cmem, ccont⟩ := compact_spec t₁ flen
  cases ch with
  | false =>
      obtain ⟨e1, e2, e3⟩ := fch rfl
      have ht2 : t' = t₁ := by rw [ht']; simp
      subst ht2
      refine ⟨flen, fsum, fpos, ?_, fall⟩
      left
      exact ⟨e1, by rw [hs']; exact e2⟩
  | true =>
      have ht2 : t' = Team.compact t₁ := by rw [ht']; simp
      subst ht2
      refine ⟨clen, ?_, ?_, Or.inr ccont, ?_⟩
      · have h1 := csum wM
        have h2 : Team.sumW wM ((t₁, s₁, true) : Team × σ × Bool).1 =
            Team.sumW wM t₁ := rfl
        omega
      · intro q g hqg
        have hmem : some g ∈ t₁ := (cmem g).mp (mem_of_getD _ q g hqg)
        obtain ⟨p, hp, hpg⟩ := (mem_iff_getD t₁ g).mp hmem
        exact fpos p g hpg
      · intro P hP hghost hbee hall g' hg'
        exact fall P hP hghost hbee hall g' ((cmem g').mp hg')

/-- `Team::remove_dead` always succeeds on a length-5 team whose members
all have at most 6 experience. -/
theorem remove_dead_isSome {σ : Type} (roll : Roll σ) (hroll : RollOK roll)
    (t : Team) (s : σ) (hlen : t.length = 5)
    (hexp : ∀ g, some g ∈ t → g.exp ≤ 6) :
    (Team.remove_dead roll t s).isSome = true := by
  rw [Team.remove_dead]
  have hr5 : List.range TEAM_SIZE = List.range' 0 5 := by
    rw [List.range_eq_range', TEAM_SIZE]
  rw [hr5]
  refine isSome_bind_pred
    (rd_fold_isSome roll hroll 5 0 t s false (by omega) hlen hexp)
    (fun a ha => ?_)
  obtain ⟨t₁, s₁, ch⟩ := a
  rfl

/-- C10: for every team and every dice source, when `Team::remove_dead`
returns, every occupied slot holds a friend with health at least 1: the
zero-health friends have been removed and every unit spawned during death
processing (the ghost cricket at its level's stats, the honey bee at 1/1)
has positive health. -/
theorem C10_remove_dead_healthy {σ : Type} (roll : Roll σ) (t : Team)
    (s : σ) (t' : Team) (s' : σ) (hlen : t.length = 5)
    (h : Team.remove_dead roll t s = some (t', s')) :
    ∀ q g, t'.getD q none = some g → 1 ≤ g.health :=
  (remove_dead_part roll t s t' s' h hlen).2.2.1

theorem C10_remove_dead_healthy_witness :
    ([some ⟨Species.Fish, 2, 0, none, 0⟩,
      some ⟨Species.Fish, 2, 3, none, 0⟩, none, none, none] : Team).length
        = 5 ∧
    Team.remove_dead lenientRoll
        [some ⟨Species.Fish, 2, 0, none, 0⟩,
         some ⟨Species.Fish, 2, 3, none, 0⟩, none, none, none]
        ([] : List ℕ) =
      some ([some ⟨Species.Fish, 2, 3, none, 0⟩, none, none, none, none],
        []) ∧
    1 ≤ (⟨Species.Fish, 2, 3, none, 0⟩ : Friend).health :=
  ⟨rfl, rfl,
   C10_remove_dead_healthy lenientRoll
     [some ⟨Species.Fish, 2, 0, none, 0⟩,
      some ⟨Species.Fish, 2, 3, none, 0⟩, none, none, none] []
     [some ⟨Species.Fish, 2, 3, none, 0⟩, none, none, none, none] []
     rfl rfl 0 ⟨Species.Fish, 2, 3, none, 0⟩ rfl⟩

/-- C3 counterexample: a reachable four-transition play (buy three Ants
into slots 0, 1, 2, then sell the Ant at slot 1), every transition
committed (`step` returned `false`), ends with the non-contiguous team
`[Ant, none, Ant, none, none]`: the shop state machine's buy/sell/merge
transitions never compact the team. -/
theorem C3_shop_contiguity_cex :
    ∃ sh₁ sh₂ sh₃ sh₄ sh₅ : Shop, ∃ s₁ s₂ s₃ s₄ s₅ : List ℕ,
      Shop.new lenientRoll [0, 0, 0, 0, 0, 0, 0, 0, 0, 1, 0, 0, 2, 2, 1] =
        some (sh₁, s₁) ∧
      Shop.step lenientRoll sh₁ s₁ = some (false, sh₂, s₂) ∧
      Shop.step lenientRoll sh₂ s₂ = some (false, sh₃, s₃) ∧
      Shop.step lenientRoll sh₃ s₃ = some (false, sh₄, s₄) ∧
      Shop.step lenientRoll sh₄ s₄ = some (false, sh₅, s₅) ∧
      Team.contiguousB sh₅.team = false :=
  ⟨⟨[none, none, none, none, none], 10,
    [some ⟨Species.Ant, 1, 2, none, 0⟩, some ⟨Species.Ant, 1, 2, none, 0⟩,
     some ⟨Species.Ant, 1, 2, none, 0⟩], [some Food.Apple]⟩,
   ⟨[some ⟨Species.Ant, 1, 2, none, 0⟩, none, none, none, none], 7,
    [none, some ⟨Species.Ant, 1, 2, none, 0⟩,
     some ⟨Species.Ant, 1, 2, none, 0⟩], [some Food.Apple]⟩,
   ⟨[some ⟨Species.Ant, 1, 2, none, 0⟩, some ⟨Species.Ant, 1, 2, none, 0⟩,
     none, none, none], 4,
    [none, none, some ⟨Species.Ant, 1, 2, none, 0⟩], [some Food.Apple]⟩,
   ⟨[some ⟨Species.Ant, 1, 2, none, 0⟩, some ⟨Species.Ant, 1, 2, none, 0⟩,
     some ⟨Species.Ant, 1, 2, none, 0⟩, none, none], 1,
    [none, none, none], [some Food.Apple]⟩,
   ⟨[some ⟨Species.Ant, 1, 2, none, 0⟩, none,
     some ⟨Species.Ant, 1, 2, none, 0⟩, none, none], 2,
    [none, none, none], [some Food.Apple]⟩,
   [0, 0, 0, 0, 0, 1, 0, 0, 2, 2, 1], [0, 0, 1, 0, 0, 2, 2, 1],
   [0, 0, 2, 2, 1], [2, 1], [],
   rfl, rfl, rfl, rfl, rfl, rfl⟩

/-- C3 (amended): the battle engine's remove-dead transition does
preserve contiguity: starting from a contiguous length-5 team,
`Team::remove_dead` either leaves the team untouched or compacts it. -/
theorem C3_remove_dead_contiguous {σ : Type} (roll : Roll σ) (t : Team)
    (s : σ) (t' : Team) (s' : σ) (hlen : t.length = 5)
    (hc : Team.contiguousB t = true)
    (h : Team.remove_dead roll t s = some (t', s')) :
    Team.contiguousB t' = true := by
  rcases (remove_dead_part roll t s t' s' h hlen).2.2.2.1 with ⟨e1, e2⟩ | hcc
  · rw [e1]
    exact hc
  · exact hcc

theorem C3_remove_dead_contiguous_witness :
    ([some ⟨Species.Horse, 2, 0, none, 0⟩,
      some ⟨Species.Fish, 2, 3, none, 0⟩, none, none, none] : Team).length
        = 5 ∧
    Team.contiguousB [some ⟨Species.Horse, 2, 0, none, 0⟩,
      some ⟨Species.Fish, 2, 3, none, 0⟩, none, none, none] = true ∧
    Team.contiguousB [some ⟨Species.Fish, 2, 3, none, 0⟩, none, none,
      none, none] = true :=
  ⟨rfl, rfl,
   C3_remove_dead_contiguous lenientRoll
     [some ⟨Species.Horse, 2, 0, none, 0⟩,
      some ⟨Species.Fish, 2, 3, none, 0⟩, none, none, none] []
     [some ⟨Species.Fish, 2, 3, none, 0⟩, none, none, none, none] []
     rfl rfl rfl⟩

/-- C7 counterexample: when the merge action (r = 4) is drawn and the
team has no two occupied slots sharing a species, `Shop::step` does not
return `true`: it draws `gen_range(0..0)` before checking that there are
no candidates, which panics (modelled by the strict dice source returning
`none` on an empty range). -/
theorem C7_step_merge_panics_cex :
    Shop.step strictRoll
      ⟨[none, none, none, none, none], 10, [none, none, none], [none]⟩
      [4] = none := rfl

/-- A battle state that `Battle::step` maps to itself loops forever:
`run_go` exhausts any amount of fuel. -/
theorem run_go_fix {σ : Type} (roll : Roll σ) (bt : Battle) (s : σ)
    (hea : Team.is_empty bt.a = false) (heb : Team.is_empty bt.b = false)
    (hstep : Battle.step roll bt s = some (bt, s)) :
    ∀ n, Battle.run_go roll n bt s = some none
  | 0 => rfl
  | n + 1 => by
      simp only [Battle.run_go, hea, heb]
      rw [hstep, Option.some_bind]
      exact run_go_fix roll bt s hea heb hstep n

/-- C4 counterexample: a pair of teams on which `Battle::run` does not
terminate: two zero-attack 1-health Fish deal no damage, so a clash maps
the battle state to itself while both emptiness checks fail, and the turn
loop runs forever — concretely, a fuel bound of 100 turns is exhausted
with no winner. -/
theorem C4_battle_nonterminating_cex :
    Battle.step lenientRoll
      ⟨[some ⟨Species.Fish, 0, 1, none, 0⟩, none, none, none, none],
       [some ⟨Species.Fish, 0, 1, none, 0⟩, none, none, none, none]⟩ [] =
      some (⟨[some ⟨Species.Fish, 0, 1, none, 0⟩, none, none, none, none],
        [some ⟨Species.Fish, 0, 1, none, 0⟩, none, none, none, none]⟩,
        []) ∧
    Team.is_empty [some ⟨Species.Fish, 0, 1, none, 0⟩, none, none, none,
      none] = false ∧
    Battle.run lenientRoll 100
      ⟨[some ⟨Species.Fish, 0, 1, none, 0⟩, none, none, none, none],
       [some ⟨Species.Fish, 0, 1, none, 0⟩, none, none, none, none]⟩
      [] = some none := by
  refine ⟨rfl, rfl, ?_⟩
  rw [Battle.run]
  have hbb : Battle.before_battle lenientRoll
      ⟨[some ⟨Species.Fish, 0, 1, none, 0⟩, none, none, none, none],
       [some ⟨Species.Fish, 0, 1, none, 0⟩, none, none, none, none]⟩ [] =
      some (⟨[some ⟨Species.Fish, 0, 1, none, 0⟩, none, none, none, none],
        [some ⟨Species.Fish, 0, 1, none, 0⟩, none, none, none, none]⟩,
        []) := rfl
  rw [hbb, Option.some_bind]
  exact run_go_fix lenientRoll
    ⟨[some ⟨Species.Fish, 0, 1, none, 0⟩, none, none, none, none],
     [some ⟨Species.Fish, 0, 1, none, 0⟩, none, none, none, none]⟩ []
    rfl rfl rfl 100


theorem mask_countP_eq_count (t : Team) :
    (t.map Option.isSome).countP id = Team.count t := by
  rw [List.countP_map]
  rfl

theorem is_empty_count (t : Team) (h : Team.is_empty t = true) :
    Team.count t = 0 := by
  simpa [Team.is_empty] using h

theorem all_isNone_countP {α : Type} (l : List (Option α))
    (h : l.all Option.isNone = true) :
    (l.map Option.isSome).countP id = 0 := by
  rw [List.countP_map, List.countP_eq_zero]
  intro a ha
  have h2 := List.all_eq_true.mp h a ha
  cases a
  · simp
  · simp at h2

theorem pick_one_empty {σ α : Type} (roll : Roll σ) (vs : List (Option α))
    (s : σ) (h : (vs.map Option.isSome).countP id = 0) :
    pick_one roll vs s = some (none, s) := by
  simp only [pick_one, pick_some, h]
  rfl

/-- C7 (amended): with a dice source that always yields a value, every
failing precondition of a `Shop::step` action makes `step` report branch
termination (`true`) with the shop unchanged — except the merge action,
whose empty-range draw happens before the candidate check and panics on a
strict dice source (see the counterexample); under a total dice source
the no-pair merge also terminates cleanly. -/
theorem C7_step_precondition_failures {σ : Type} (roll : Roll σ)
    (hroll : RollTotalOK roll) (sh : Shop) (s : σ) (r : ℕ) (s₁ : σ)
    (hr : roll s 0 5 = some (r, s₁)) :
    (r = 0 → sh.gold < 3 → Shop.step roll sh s = some (true, sh, s₁)) ∧
    (r = 0 → 3 ≤ sh.gold → sh.shop_friends.all Option.isNone = true →
      Shop.step roll sh s = some (true, sh, s₁)) ∧
    (r = 1 → sh.gold < 3 → Shop.step roll sh s = some (true, sh, s₁)) ∧
    (r = 1 → 3 ≤ sh.gold → sh.shop_foods.all Option.isNone = true →
      Shop.step roll sh s = some (true, sh, s₁)) ∧
    (r = 1 → 3 ≤ sh.gold → Team.is_empty sh.team = true →
      ∃ s₂, Shop.step roll sh s = some (true, sh, s₂)) ∧
    (r = 2 → Team.is_empty sh.team = true →
      Shop.step roll sh s = some (true, sh, s₁)) ∧
    (r = 3 → sh.gold = 0 → Shop.step roll sh s = some (true, sh, s₁)) ∧
    (r = 4 → (∀ i, Shop.has_target sh.team i = false) →
      ∃ s₂, Shop.step roll sh s = some (true, sh, s₂)) := by
  refine ⟨?_, ?_, ?_, ?_, ?_, ?_, ?_, ?_⟩
  · rintro rfl hg
    rw [Shop.step]
    simp only [hr, Option.bind_eq_bind, Option.some_bind]
    rw [if_pos hg]
    rfl
  · rintro rfl hg hoff
    rw [Shop.step]
    simp only [hr, Option.bind_eq_bind, Option.some_bind]
    rw [if_neg (by omega)]
    have hn : (sh.shop_friends.map Option.isSome).countP id = 0 :=
      all_isNone_countP _ hoff
    simp only [Shop.random_friend]
    rw [if_pos hn]
    rfl
  · rintro rfl hg
    rw [Shop.step]
    simp only [hr, Option.bind_eq_bind, Option.some_bind]
    rw [if_pos hg]
    rfl
  · rintro rfl hg hfoods
    rw [Shop.step]
    simp only [hr, Option.bind_eq_bind, Option.some_bind]
    rw [if_neg (by omega)]
    simp only [Shop.random_food]
    rw [if_pos hfoods]
    rfl
  · rintro rfl hg hteam
    have hcnt : (sh.team.map Option.isSome).countP id = 0 := by
      rw [mask_countP_eq_count]
      exact is_empty_count _ hteam
    by_cases hfa : sh.shop_foods.all Option.isNone = true
    · refine ⟨s₁, ?_⟩
      rw [Shop.step]
      simp only [hr, Option.bind_eq_bind, Option.some_bind]
      rw [if_neg (by omega)]
      simp only [Shop.random_food]
      rw [if_pos hfa]
      rfl
    · obtain ⟨jo, s₂, hpick, hval⟩ :=
        pick_one_spec roll (rollTotalOK_ok hroll) sh.shop_foods s₁
      refine ⟨s₂, ?_⟩
      rw [Shop.step]
      simp only [hr, Option.bind_eq_bind, Option.some_bind]
      rw [if_neg (by omega)]
      simp only [Shop.random_food]
      rw [if_neg hfa, hpick]
      simp only [Option.bind_eq_bind, Option.some_bind]
      cases jo with
      | none => rfl
      | some i =>
          have hrf : Team.random_friend roll sh.team s₂ =
              some (none, s₂) := pick_one_empty roll sh.team s₂ hcnt
          rw [hrf]
          rfl
  · rintro rfl hteam
    have hcnt : (sh.team.map Option.isSome).countP id = 0 := by
      rw [mask_countP_eq_count]
      exact is_empty_count _ hteam
    rw [Shop.step]
    simp only [hr, Option.bind_eq_bind, Option.some_bind]
    have hrf : Team.random_friend roll sh.team s₁ = some (none, s₁) :=
      pick_one_empty roll sh.team s₁ hcnt
    rw [hrf]
    rfl
  · rintro rfl hg
    rw [Shop.step]
    simp only [hr, Option.bind_eq_bind, Option.some_bind]
    rw [if_neg (by omega)]
    rfl
  · rintro rfl hmask
    have hnum :
        ((List.range TEAM_SIZE).map (Shop.has_target sh.team)).countP id
          = 0 := by
      rw [List.countP_eq_zero]
      intro a ha
      obtain ⟨i, hi, rfl⟩ := List.mem_map.mp ha
      rw [hmask i]
      simp
    obtain ⟨v, s₂, hv, hvr⟩ := hroll s₁ 0
      (((List.range TEAM_SIZE).map (Shop.has_target sh.team)).countP id)
    refine ⟨s₂, ?_⟩
    rw [Shop.step]
    simp only [hr, Option.bind_eq_bind, Option.some_bind]
    rw [hv]
    simp only [Option.bind_eq_bind, Option.some_bind]
    have hnth : nthTrue
        ((List.range TEAM_SIZE).map (Shop.has_target sh.team)) v = none := by
      rw [nthTrue]
      apply List.get?_eq_none.mpr
      rw [trueIdxs, trueIdxsAux_length, hnum]
      omega
    rw [hnth]
    rfl

theorem C7_step_precondition_failures_witness :
    RollTotalOK lenientRoll ∧
    lenientRoll [3] 0 5 = some (3, []) ∧
    Shop.step lenientRoll
      ⟨[none, none, none, none, none], 0, [none, none, none], [none]⟩ [3] =
      some (true,
        ⟨[none, none, none, none, none], 0, [none, none, none], [none]⟩,
        []) :=
  ⟨lenientRoll_totalOK, rfl,
   (C7_step_precondition_failures lenientRoll lenientRoll_totalOK
     ⟨[none, none, none, none, none], 0, [none, none, none], [none]⟩
     [3] 3 [] rfl).2.2.2.2.2.2.1 rfl rfl⟩


theorem shotLE_refl (t : Team) : ShotLE t t :=
  ⟨rfl, fun p => Iff.rfl, fun p f' hf' =>
    ⟨f', hf', rfl, rfl, rfl, rfl, le_refl _⟩⟩

theorem shotLE_trans {t₁ t₂ t₃ : Team} (h1 : ShotLE t₁ t₂)
    (h2 : ShotLE t₂ t₃) : ShotLE t₁ t₃ := by
  obtain ⟨l1, o1, m1⟩ := h1
  obtain ⟨l2, o2, m2⟩ := h2
  refine ⟨l2.trans l1, fun p => (o2 p).trans (o1 p), fun p f' hf' => ?_⟩
  obtain ⟨g, hg, e1, e2, e3, e4, e5⟩ := m2 p f' hf'
  obtain ⟨f, hf, d1, d2, d3, d4, d5⟩ := m1 p g hg
  exact ⟨f, hf, e1.trans d1, e2.trans d2, e3.trans d3, e4.trans d4,
    le_trans e5 d5⟩

theorem side_setSide_same (bt : Battle) (sd : Bool) (t : Team) :
    (bt.setSide sd t).side sd = t := by
  cases sd <;> rfl

theorem side_setSide_other (bt : Battle) (sd : Bool) (t : Team) :
    (bt.setSide sd t).side (!sd) = bt.side (!sd) := by
  cases sd <;> rfl

theorem shots_fold_spec :
    ∀ (js : List ℕ) (t t' : Team),
      js.foldlM (fun (t : Team) j => do
          let g ← t.getD j none
          pure (t.set j (some { g with health := g.health - 1 }))) t =
        some t' →
      ShotLE t t'
  | [], t, t', h => by
      simp only [List.foldlM_nil, Option.pure_def, Option.some_inj] at h
      subst h
      exact shotLE_refl t
  | j :: js, t, t', h => by
      simp only [List.foldlM_cons, Option.bind_eq_bind,
        Option.bind_eq_some, Option.pure_def] at h
      obtain ⟨t₁, h1, h2⟩ := h
      simp only [Option.bind_eq_bind, Option.bind_eq_some,
        Option.pure_def, Option.some_inj] at h1
      obtain ⟨g, hg, ht1⟩ := h1
      have hjt : j < t.length := lt_length_of_getD_some t j g hg
      have step : ShotLE t t₁ := by
        rw [← ht1]
        refine ⟨by simp, fun p => ?_, fun p f' hf' => ?_⟩
        · by_cases hpj : p = j
          · subst hpj
            rw [getD_set_self _ _ _ _ hjt, hg]
            simp
          · rw [getD_set_ne _ _ _ _ _ fun e => hpj e.symm]
        · by_cases hpj : p = j
          · subst hpj
            rw [getD_set_self _ _ _ _ hjt] at hf'
            rw [Option.some_inj] at hf'
            exact ⟨g, hg, by rw [← hf'], by rw [← hf'], by rw [← hf'],
              by rw [← hf'], by rw [← hf']; exact Nat.sub_le _ _⟩
          · rw [getD_set_ne _ _ _ _ _ fun e => hpj e.symm] at hf'
            exact ⟨f', hf', rfl, rfl, rfl, rfl, le_refl _⟩
      exact shotLE_trans step (shots_fold_spec js t₁ t' h2)

theorem shots_fold_isSome :
    ∀ (js : List ℕ) (t : Team), (∀ j, j ∈ js → (t.getD j none).isSome = true) →
      (js.foldlM (fun (t : Team) j => do
          let g ← t.getD j none
          pure (t.set j (some { g with health := g.health - 1 }))) t).isSome
        = true
  | [], t, hocc => rfl
  | j :: js, t, hocc => by
      simp only [List.foldlM_cons, Option.bind_eq_bind]
      obtain ⟨g, hg⟩ := Option.isSome_iff_exists.mp
        (hocc j (List.mem_cons_self j js))
      have hjt : j < t.length := lt_length_of_getD_some t j g hg
      simp only [hg, Option.some_bind, Option.pure_def]
      refine shots_fold_isSome js _ ?_
      intro j' hj'
      by_cases hpj : j' = j
      · subst hpj
        rw [getD_set_self _ _ _ _ hjt]
        rfl
      · rw [getD_set_ne _ _ _ _ _ fun e => hpj e.symm]
        exact hocc j' (List.mem_cons_of_mem j hj')


theorem shotLE_mem {t t' : Team} (h : ShotLE t t') (g' : Friend)
    (hg' : some g' ∈ t') :
    ∃ g, some g ∈ t ∧ g'.species = g.species ∧ g'.modifier = g.modifier ∧
      g'.exp = g.exp ∧ g'.attack = g.attack ∧ g'.health ≤ g.health := by
  obtain ⟨p, hp, hpg⟩ := (mem_iff_getD t' g').mp hg'
  obtain ⟨g, hg, e1, e2, e3, e4, e5⟩ := h.2.2 p g' hpg
  exact ⟨g, mem_of_getD t p g hg, e1, e2, e3, e4, e5⟩

theorem contiguousB_of_occ (t t' : Team) (hlen : t'.length = t.length)
    (hocc : ∀ p, t'.getD p none = none ↔ t.getD p none = none)
    (hc : Team.contiguousB t = true) : Team.contiguousB t' = true := by
  have hsome : ∀ p, (t'.getD p none).isSome = (t.getD p none).isSome := by
    intro p
    cases h1 : t'.getD p none with
    | none => rw [(hocc p).mp h1]
    | some g =>
        cases h2 : t.getD p none with
        | none =>
            exfalso
            have h3 := (hocc p).mpr h2
            rw [h1] at h3
            exact Option.noConfusion h3
        | some g2 => rfl
  have hnone : ∀ p, (t'.getD p none).isNone = (t.getD p none).isNone := by
    intro p
    cases h1 : t'.getD p none with
    | none => rw [(hocc p).mp h1]
    | some g =>
        cases h2 : t.getD p none with
        | none =>
            exfalso
            have h3 := (hocc p).mpr h2
            rw [h1] at h3
            exact Option.noConfusion h3
        | some g2 => rfl
  rw [Team.contiguousB, List.all_eq_true] at hc
  rw [Team.contiguousB, hlen, List.all_eq_true]
  intro p hp
  have h2 := hc p hp
  simp only [hsome p, hnone (p + 1)]
  exact h2

/-- `Battle::on_battle_start` only (weakly) lowers healths while keeping
both teams' length, occupancy, and each occupant's species, modifier,
experience and attack. -/
theorem obs_spec {σ : Type} (roll : Roll σ) (bt : Battle) (i : ℕ)
    (side : Bool) (s : σ) (bt' : Battle) (s' : σ)
    (h : Battle.on_battle_start roll bt i side s = some (bt', s')) :
    ShotLE bt.a bt'.a ∧ ShotLE bt.b bt'.b := by
  rw [Battle.on_battle_start] at h
  cases hslot : (bt.side side).getD i none with
  | none =>
      simp only [hslot, Option.some_inj, Prod.mk.injEq] at h
      obtain ⟨h1, h2⟩ := h
      subst h1
      exact ⟨shotLE_refl bt.a, shotLE_refl bt.b⟩
  | some f =>
      simp only [hslot] at h
      cases hfs : f.species
      case Mosquito =>
        simp only [hfs, Option.bind_eq_bind, Option.bind_eq_some,
          Option.pure_def, Option.some_inj, Prod.mk.injEq] at h
        obtain ⟨lv, hlv, ⟨js, s₂⟩, hpick, hrest⟩ := h
        simp only [Option.bind_eq_bind, Option.bind_eq_some,
          Option.pure_def, Option.some_inj, Prod.mk.injEq] at hrest
        obtain ⟨t', hfold, heq1, heq2⟩ := hrest
        subst heq1
        have hsh : ShotLE (bt.side !side) t' := shots_fold_spec js _ t' hfold
        cases side with
        | false => exact ⟨hsh, shotLE_refl bt.b⟩
        | true => exact ⟨shotLE_refl bt.a, hsh⟩
      all_goals
        (simp only [hfs, Option.some_inj, Prod.mk.injEq] at h
         obtain ⟨h1, h2⟩ := h
         subst h1
         exact ⟨shotLE_refl bt.a, shotLE_refl bt.b⟩)

/-- `Battle::on_battle_start` succeeds whenever the firing side's members
have at most 6 experience. -/
theorem obs_isSome {σ : Type} (roll : Roll σ) (hroll : RollOK roll)
    (bt : Battle) (i : ℕ) (side : Bool) (s : σ)
    (hexp : ∀ g, some g ∈ bt.side side → g.exp ≤ 6) :
    (Battle.on_battle_start roll bt i side s).isSome = true := by
  rw [Battle.on_battle_start]
  cases hslot : (bt.side side).getD i none with
  | none => rfl
  | some f =>
      cases hfs : f.species
      case Mosquito =>
        obtain ⟨lv, hlv⟩ := level_isSome f
          (hexp f (mem_of_getD _ i f hslot))
        obtain ⟨js, s₂, hpick, hval⟩ :=
          pick_some_spec roll hroll lv (bt.side !side) s
        have hocc : ∀ j, j ∈ js →
            ((bt.side !side).getD j none).isSome = true :=
          fun j hj => (hval j hj).1
        have hfold := shots_fold_isSome js _ hocc
        obtain ⟨t', hf⟩ := Option.isSome_iff_exists.mp hfold
        simp only [hfs, hlv, Team.random_friends, hpick,
          Option.bind_eq_bind, Option.some_bind]
        refine isSome_bindo_pred ?_ (fun a ha => rfl)
        exact hfold
      all_goals
        (simp only [hfs]
         rfl)

/-- Each inner `for i in 0..TEAM_SIZE` pass of `Battle::before_battle`
composes battle-start shots. -/
theorem bb_inner_spec {σ : Type} (roll : Roll σ) (tm : Bool) :
    ∀ (l : List ℕ) (p out : Battle × σ),
      l.foldlM (fun (p : Battle × σ) i =>
        Battle.on_battle_start roll p.1 i tm p.2) p = some out →
      ShotLE p.1.a out.1.a ∧ ShotLE p.1.b out.1.b
  | [], p, out, h => by
      simp only [List.foldlM_nil, Option.pure_def, Option.some_inj] at h
      subst h
      exact ⟨shotLE_refl _, shotLE_refl _⟩
  | i :: l, p, out, h => by
      simp only [List.foldlM_cons, Option.bind_eq_bind,
        Option.bind_eq_some] at h
      obtain ⟨⟨bt₁, s₁⟩, h1, h2⟩ := h
      obtain ⟨ha1, hb1⟩ := obs_spec roll p.1 i tm p.2 bt₁ s₁ h1
      obtain ⟨ha2, hb2⟩ := bb_inner_spec roll tm l (bt₁, s₁) out h2
      exact ⟨shotLE_trans ha1 ha2, shotLE_trans hb1 hb2⟩

theorem bb_inner_isSome {σ : Type} (roll : Roll σ) (hroll : RollOK roll)
    (tm : Bool) :
    ∀ (l : List ℕ) (p : Battle × σ),
      (∀ g, some g ∈ p.1.side tm → g.exp ≤ 6) →
      (l.foldlM (fun (p : Battle × σ) i =>
        Battle.on_battle_start roll p.1 i tm p.2) p).isSome = true
  | [], p, hexp => rfl
  | i :: l, p, hexp => by
      simp only [List.foldlM_cons, Option.bind_eq_bind]
      have h1 := obs_isSome roll hroll p.1 i tm p.2 hexp
      obtain ⟨⟨bt₁, s₁⟩, hq⟩ := Option.isSome_iff_exists.mp h1
      rw [hq, Option.some_bind]
      refine bb_inner_isSome roll hroll tm l (bt₁, s₁) ?_
      intro g hg
      obtain ⟨ha, hb⟩ := obs_spec roll p.1 i tm p.2 bt₁ s₁ hq
      have hsh : ShotLE (p.1.side tm) (bt₁.side tm) := by
        cases tm
        · exact hb
        · exact ha
      obtain ⟨g0, hg0, e1, e2, e3, e4, e5⟩ := shotLE_mem hsh g hg
      rw [e3]
      exact hexp g0 hg0


/-- `Battle::before_battle` succeeds on well-formed teams and yields
length-5 contiguous teams whose members all have positive health, their
original positive attack, and bounded experience. -/
theorem before_battle_ex {σ : Type} (roll : Roll σ) (hroll : RollOK roll)
    (bt : Battle) (s : σ)
    (hla : bt.a.length = 5) (hlb : bt.b.length = 5)
    (hca : Team.contiguousB bt.a = true)
    (hcb : Team.contiguousB bt.b = true)
    (hma : ∀ g, some g ∈ bt.a → 1 ≤ g.attack ∧ g.exp ≤ 6)
    (hmb : ∀ g, some g ∈ bt.b → 1 ≤ g.attack ∧ g.exp ≤ 6) :
    ∃ bt' s', Battle.before_battle roll bt s = some (bt', s') ∧
      bt'.a.length = 5 ∧ bt'.b.length = 5 ∧
      Team.contiguousB bt'.a = true ∧ Team.contiguousB bt'.b = true ∧
      (∀ g, some g ∈ bt'.a → 1 ≤ g.health ∧ 1 ≤ g.attack ∧ g.exp ≤ 6) ∧
      (∀ g, some g ∈ bt'.b → 1 ≤ g.health ∧ 1 ≤ g.attack ∧ g.exp ≤ 6) := by
  have hex1 := bb_inner_isSome roll hroll true (List.range TEAM_SIZE)
    (bt, s) (fun g hg => (hma g hg).2)
  obtain ⟨⟨bt₁, s₁⟩, hq1⟩ := Option.isSome_iff_exists.mp hex1
  obtain ⟨hsa1, hsb1⟩ :=
    bb_inner_spec roll true (List.range TEAM_SIZE) (bt, s) (bt₁, s₁) hq1
  have hmb1 : ∀ g, some g ∈ bt₁.b → 1 ≤ g.attack ∧ g.exp ≤ 6 := by
    intro g hg
    obtain ⟨g0, hg0, e1, e2, e3, e4, e5⟩ := shotLE_mem hsb1 g hg
    exact ⟨by rw [e4]; exact (hmb g0 hg0).1, by rw [e3]; exact (hmb g0 hg0).2⟩
  have hex2 := bb_inner_isSome roll hroll false (List.range TEAM_SIZE)
    (bt₁, s₁) (fun g hg => (hmb1 g hg).2)
  obtain ⟨⟨bt₂, s₂⟩, hq2⟩ := Option.isSome_iff_exists.mp hex2
  obtain ⟨hsa2, hsb2⟩ :=
    bb_inner_spec roll false (List.range TEAM_SIZE) (bt₁, s₁) (bt₂, s₂) hq2
  have hsa := shotLE_trans hsa1 hsa2
  have hsb := shotLE_trans hsb1 hsb2
  have hla2 : bt₂.a.length = 5 := by rw [hsa.1, hla]
  have hlb2 : bt₂.b.length = 5 := by rw [hsb.1, hlb]
  have hca2 : Team.contiguousB bt₂.a = true :=
    contiguousB_of_occ bt.a bt₂.a hsa.1 hsa.2.1 hca
  have hcb2 : Team.contiguousB bt₂.b = true :=
    contiguousB_of_occ bt.b bt₂.b hsb.1 hsb.2.1 hcb
  have hma2 : ∀ g, some g ∈ bt₂.a → 1 ≤ g.attack ∧ g.exp ≤ 6 := by
    intro g hg
    obtain ⟨g0, hg0, e1, e2, e3, e4, e5⟩ := shotLE_mem hsa g hg
    exact ⟨by rw [e4]; exact (hma g0 hg0).1, by rw [e3]; exact (hma g0 hg0).2⟩
  have hmb2 : ∀ g, some g ∈ bt₂.b → 1 ≤ g.attack ∧ g.exp ≤ 6 := by
    intro g hg
    obtain ⟨g0, hg0, e1, e2, e3, e4, e5⟩ := shotLE_mem hsb g hg
    exact ⟨by rw [e4]; exact (hmb g0 hg0).1, by rw [e3]; exact (hmb g0 hg0).2⟩
  have houter : [true, false].foldlM
      (fun (p : Battle × σ) tm =>
        (List.range TEAM_SIZE).foldlM
          (fun (p : Battle × σ) i => Battle.on_battle_start roll p.1 i tm p.2)
          p)
      (bt, s) = some (bt₂, s₂) := by
    simp only [List.foldlM_cons, List.foldlM_nil, Option.bind_eq_bind]
    rw [hq1, Option.some_bind, hq2]
    rfl
  have hrda := remove_dead_isSome roll hroll bt₂.a s₂ hla2
    (fun g hg => (hma2 g hg).2)
  obtain ⟨⟨ta, sa⟩, hra⟩ := Option.isSome_iff_exists.mp hrda
  have hrdb := remove_dead_isSome roll hroll bt₂.b sa hlb2
    (fun g hg => (hmb2 g hg).2)
  obtain ⟨⟨tb, sb⟩, hrb⟩ := Option.isSome_iff_exists.mp hrdb
  obtain ⟨ral, rasum, rapos, racont, raall⟩ :=
    remove_dead_part roll bt₂.a s₂ ta sa hra hla2
  obtain ⟨rbl, rbsum, rbpos, rbcont, rball⟩ :=
    remove_dead_part roll bt₂.b sa tb sb hrb hlb2
  have hPclosed : buffClosed (fun g => 1 ≤ g.attack ∧ g.exp ≤ 6) := by
    intro f f' hs hm he hh hat hp
    exact ⟨le_trans hp.1 hat, by rw [← he]; exact hp.2⟩
  have hPghost : ∀ lv, lv = 1 ∨ lv = 3 →
      (1 ≤ (⟨Species.GhostCricket, lv, lv, none, 0⟩ : Friend).attack ∧
        (⟨Species.GhostCricket, lv, lv, none, 0⟩ : Friend).exp ≤ 6) := by
    rintro lv (rfl | rfl) <;> exact ⟨by decide, by decide⟩
  have hta : ∀ g, some g ∈ ta → 1 ≤ g.health ∧ 1 ≤ g.attack ∧ g.exp ≤ 6 := by
    intro g hg
    obtain ⟨p, hp, hpg⟩ := (mem_iff_getD ta g).mp hg
    have h1 := rapos p g hpg
    have h2 := raall (fun g => 1 ≤ g.attack ∧ g.exp ≤ 6) hPclosed hPghost
      ⟨by decide, by decide⟩ hma2 g hg
    exact ⟨h1, h2.1, h2.2⟩
  have htb : ∀ g, some g ∈ tb → 1 ≤ g.health ∧ 1 ≤ g.attack ∧ g.exp ≤ 6 := by
    intro g hg
    obtain ⟨p, hp, hpg⟩ := (mem_iff_getD tb g).mp hg
    have h1 := rbpos p g hpg
    have h2 := rball (fun g => 1 ≤ g.attack ∧ g.exp ≤ 6) hPclosed hPghost
      ⟨by decide, by decide⟩ hmb2 g hg
    exact ⟨h1, h2.1, h2.2⟩
  have hcta : Team.contiguousB ta = true := by
    rcases racont with ⟨e1, e2⟩ | hcc
    · rw [e1]
      exact hca2
    · exact hcc
  have hctb : Team.contiguousB tb = true := by
    rcases rbcont with ⟨e1, e2⟩ | hcc
    · rw [e1]
      exact hcb2
    · exact hcc
  refine ⟨⟨ta, tb⟩, sb, ?_, ral, rbl, hcta, hctb, hta, htb⟩
  rw [Battle.before_battle, houter]
  simp only [Option.bind_eq_bind, Option.some_bind]
  rw [hra]
  simp only [Option.some_bind]
  rw [hrb]
  rfl


/-- One clash of `Battle::step` on well-formed nonempty teams succeeds,
keeps the teams well-formed, and strictly decreases the termination
measure. -/
theorem step_ex {σ : Type} (roll : Roll σ) (hroll : RollOK roll)
    (bt : Battle) (s : σ)
    (hla : bt.a.length = 5) (hlb : bt.b.length = 5)
    (hca : Team.contiguousB bt.a = true)
    (hcb : Team.contiguousB bt.b = true)
    (hma : ∀ g, some g ∈ bt.a → 1 ≤ g.health ∧ 1 ≤ g.attack ∧ g.exp ≤ 6)
    (hmb : ∀ g, some g ∈ bt.b → 1 ≤ g.health ∧ 1 ≤ g.attack ∧ g.exp ≤ 6)
    (hea : Team.is_empty bt.a = false) (heb : Team.is_empty bt.b = false) :
    ∃ bt' s', Battle.step roll bt s = some (bt', s') ∧
      bt'.a.length = 5 ∧ bt'.b.length = 5 ∧
      Team.contiguousB bt'.a = true ∧ Team.contiguousB bt'.b = true ∧
      (∀ g, some g ∈ bt'.a → 1 ≤ g.health ∧ 1 ≤ g.attack ∧ g.exp ≤ 6) ∧
      (∀ g, some g ∈ bt'.b → 1 ≤ g.health ∧ 1 ≤ g.attack ∧ g.exp ≤ 6) ∧
      Battle.measure bt' < Battle.measure bt := by
  obtain ⟨f, hf⟩ := Option.isSome_iff_exists.mp
    (contiguous_front bt.a hla hca hea)
  obtain ⟨g, hg⟩ := Option.isSome_iff_exists.mp
    (contiguous_front bt.b hlb hcb heb)
  have hPclosed : buffClosed (fun g => 1 ≤ g.attack ∧ g.exp ≤ 6) := by
    intro f f' hs hm he hh hat hp
    exact ⟨le_trans hp.1 hat, by rw [← he]; exact hp.2⟩
  have hPghost : ∀ lv, lv = 1 ∨ lv = 3 →
      (1 ≤ (⟨Species.GhostCricket, lv, lv, none, 0⟩ : Friend).attack ∧
        (⟨Species.GhostCricket, lv, lv, none, 0⟩ : Friend).exp ≤ 6) := by
    rintro lv (rfl | rfl) <;> exact ⟨by decide, by decide⟩
  have h0a : (0 : ℕ) < bt.a.length := by omega
  have h0b : (0 : ℕ) < bt.b.length := by omega
  have hmA1 : ∀ g0, some g0 ∈
      bt.a.set 0 (some { f with health := f.health - g.attack }) →
      1 ≤ g0.attack ∧ g0.exp ≤ 6 := by
    intro g0 hg0
    rcases mem_set_cases bt.a 0 _ g0 hg0 with hm | hm
    · exact ⟨(hma g0 hm).2.1, (hma g0 hm).2.2⟩
    · rw [Option.some_inj] at hm
      rw [hm]
      exact ⟨(hma f (mem_of_getD _ 0 f hf)).2.1,
        (hma f (mem_of_getD _ 0 f hf)).2.2⟩
  have hmB1 : ∀ g0, some g0 ∈
      bt.b.set 0 (some { g with health := g.health - f.attack }) →
      1 ≤ g0.attack ∧ g0.exp ≤ 6 := by
    intro g0 hg0
    rcases mem_set_cases bt.b 0 _ g0 hg0 with hm | hm
    · exact ⟨(hmb g0 hm).2.1, (hmb g0 hm).2.2⟩
    · rw [Option.some_inj] at hm
      rw [hm]
      exact ⟨(hmb g (mem_of_getD _ 0 g hg)).2.1,
        (hmb g (mem_of_getD _ 0 g hg)).2.2⟩
  have hoccA : ∀ p,
      (bt.a.set 0 (some { f with health := f.health - g.attack })).getD p
        none = none ↔ bt.a.getD p none = none := by
    intro p
    by_cases hp0 : p = 0
    · subst hp0
      rw [getD_set_self _ _ _ _ h0a, hf]
      simp
    · rw [getD_set_ne _ _ _ _ _ fun e => hp0 e.symm]
  have hoccB : ∀ p,
      (bt.b.set 0 (some { g with health := g.health - f.attack })).getD p
        none = none ↔ bt.b.getD p none = none := by
    intro p
    by_cases hp0 : p = 0
    · subst hp0
      rw [getD_set_self _ _ _ _ h0b, hg]
      simp
    · rw [getD_set_ne _ _ _ _ _ fun e => hp0 e.symm]
  have hcA1 := contiguousB_of_occ bt.a _ (by simp) hoccA hca
  have hcB1 := contiguousB_of_occ bt.b _ (by simp) hoccB hcb
  have hrda := remove_dead_isSome roll hroll
    (bt.a.set 0 (some { f with health := f.health - g.attack })) s
    (by simp [hla]) (fun g0 hg0 => (hmA1 g0 hg0).2)
  obtain ⟨⟨ta, sa⟩, hra⟩ := Option.isSome_iff_exists.mp hrda
  have hrdb := remove_dead_isSome roll hroll
    (bt.b.set 0 (some { g with health := g.health - f.attack })) sa
    (by simp [hlb]) (fun g0 hg0 => (hmB1 g0 hg0).2)
  obtain ⟨⟨tb, sb⟩, hrb⟩ := Option.isSome_iff_exists.mp hrdb
  obtain ⟨ral, rasum, rapos, racont, raall⟩ :=
    remove_dead_part roll _ s ta sa hra (by simp [hla])
  obtain ⟨rbl, rbsum, rbpos, rbcont, rball⟩ :=
    remove_dead_part roll _ sa tb sb hrb (by simp [hlb])
  have hta : ∀ g0, some g0 ∈ ta →
      1 ≤ g0.health ∧ 1 ≤ g0.attack ∧ g0.exp ≤ 6 := by
    intro g0 hg0
    obtain ⟨p, hp, hpg⟩ := (mem_iff_getD ta g0).mp hg0
    have h1 := rapos p g0 hpg
    have h2 := raall (fun g => 1 ≤ g.attack ∧ g.exp ≤ 6) hPclosed hPghost
      ⟨by decide, by decide⟩ hmA1 g0 hg0
    exact ⟨h1, h2.1, h2.2⟩
  have htb : ∀ g0, some g0 ∈ tb →
      1 ≤ g0.health ∧ 1 ≤ g0.attack ∧ g0.exp ≤ 6 := by
    intro g0 hg0
    obtain ⟨p, hp, hpg⟩ := (mem_iff_getD tb g0).mp hg0
    have h1 := rbpos p g0 hpg
    have h2 := rball (fun g => 1 ≤ g.attack ∧ g.exp ≤ 6) hPclosed hPghost
      ⟨by decide, by decide⟩ hmB1 g0 hg0
    exact ⟨h1, h2.1, h2.2⟩
  have hcta : Team.contiguousB ta = true := by
    rcases racont with ⟨e1, e2⟩ | hcc
    · rw [e1]
      exact hcA1
    · exact hcc
  have hctb : Team.contiguousB tb = true := by
    rcases rbcont with ⟨e1, e2⟩ | hcc
    · rw [e1]
      exact hcB1
    · exact hcc
  have hsumA := sumW_set wM bt.a 0
    (some { f with health := f.health - g.attack }) h0a
  rw [hf] at hsumA
  simp only [wOpt] at hsumA
  have hsumB := sumW_set wM bt.b 0
    (some { g with health := g.health - f.attack }) h0b
  rw [hg] at hsumB
  simp only [wOpt] at hsumB
  have hWf1 : wM { f with health := f.health - g.attack } =
      f.health - g.attack + spawnW f := rfl
  have hWf : wM f = f.health + spawnW f := rfl
  have hWg1 : wM { g with health := g.health - f.attack } =
      g.health - f.attack + spawnW g := rfl
  have hWg : wM g = g.health + spawnW g := rfl
  have hga : 1 ≤ g.attack := (hmb g (mem_of_getD _ 0 g hg)).2.1
  have hfa : 1 ≤ f.attack := (hma f (mem_of_getD _ 0 f hf)).2.1
  have hfh : 1 ≤ f.health := (hma f (mem_of_getD _ 0 f hf)).1
  have hgh : 1 ≤ g.health := (hmb g (mem_of_getD _ 0 g hg)).1
  refine ⟨⟨ta, tb⟩, sb, ?_, ral, rbl, hcta, hctb, hta, htb, ?_⟩
  · rw [Battle.step, hf]
    simp only [Option.bind_eq_bind, Option.some_bind]
    rw [hg]
    simp only [Option.some_bind]
    rw [hra]
    simp only [Option.some_bind]
    rw [hrb]
    rfl
  · show Team.sumW wM ta + Team.sumW wM tb <
      Team.sumW wM bt.a + Team.sumW wM bt.b
    omega

/-- The turn loop of `Battle::run` produces a winner within `measure`
steps on well-formed teams. -/
theorem run_go_term {σ : Type} (roll : Roll σ) (hroll : RollOK roll) :
    ∀ (fuel : ℕ) (bt : Battle) (s : σ),
      bt.a.length = 5 → bt.b.length = 5 →
      Team.contiguousB bt.a = true → Team.contiguousB bt.b = true →
      (∀ g, some g ∈ bt.a → 1 ≤ g.health ∧ 1 ≤ g.attack ∧ g.exp ≤ 6) →
      (∀ g, some g ∈ bt.b → 1 ≤ g.health ∧ 1 ≤ g.attack ∧ g.exp ≤ 6) →
      Battle.measure bt < fuel →
      ∃ w, Battle.run_go roll fuel bt s = some (some w)
  | 0, bt, s, _, _, _, _, _, _, hm => absurd hm (by omega)
  | fuel + 1, bt, s, hla, hlb, hca, hcb, hma, hmb, hm => by
      cases hea : Team.is_empty bt.a <;> cases heb : Team.is_empty bt.b
      · obtain ⟨bt', s', hstep, p1, p2, p3, p4, p5, p6, p7⟩ :=
          step_ex roll hroll bt s hla hlb hca hcb hma hmb hea heb
        obtain ⟨w, hw⟩ := run_go_term roll hroll fuel bt' s' p1 p2 p3 p4
          p5 p6 (by omega)
        refine ⟨w, ?_⟩
        simp only [Battle.run_go, hea, heb]
        rw [hstep, Option.some_bind]
        exact hw
      · exact ⟨Winner.TeamA, by simp only [Battle.run_go, hea, heb]⟩
      · exact ⟨Winner.TeamB, by simp only [Battle.run_go, hea, heb]⟩
      · exact ⟨Winner.Tied, by simp only [Battle.run_go, hea, heb]⟩

set_option maxHeartbeats 800000 in
/-- C4 (amended): `Battle::run` terminates — not for every pair of teams
(zero-attack units loop forever, see the counterexample), but for every
pair of length-5 contiguous teams whose members all have attack at least
1 and experience at most 6: some fuel bound yields a winner.  The
measure is total health plus spawn potential, not plain total health: a
clash can increase total health (a dying Cricket's ghost may outweigh the
damage dealt). -/
theorem C4_battle_run_terminates {σ : Type} (roll : Roll σ)
    (hroll : RollOK roll) (bt : Battle) (s : σ)
    (hla : bt.a.length = 5) (hlb : bt.b.length = 5)
    (hca : Team.contiguousB bt.a = true)
    (hcb : Team.contiguousB bt.b = true)
    (hma : ∀ g, some g ∈ bt.a → 1 ≤ g.attack ∧ g.exp ≤ 6)
    (hmb : ∀ g, some g ∈ bt.b → 1 ≤ g.attack ∧ g.exp ≤ 6) :
    ∃ n w, Battle.run roll n bt s = some (some w) := by
  obtain ⟨bt₁, s₁, hbb, q1, q2, q3, q4, q5, q6⟩ :=
    before_battle_ex roll hroll bt s hla hlb hca hcb hma hmb
  obtain ⟨w, hw⟩ := run_go_term roll hroll (Battle.measure bt₁ + 1) bt₁ s₁
    q1 q2 q3 q4 q5 q6 (by omega)
  refine ⟨Battle.measure bt₁ + 1, w, ?_⟩
  rw [Battle.run, hbb, Option.some_bind]
  exact hw

theorem C4_battle_run_terminates_witness :
    ∃ n w, Battle.run lenientRoll n
      ⟨[some ⟨Species.Fish, 1, 1, none, 0⟩, none, none, none, none],
       [some ⟨Species.Fish, 2, 1, none, 0⟩, none, none, none, none]⟩
      [] = some (some w) :=
  C4_battle_run_terminates lenientRoll (rollTotalOK_ok lenientRoll_totalOK)
    ⟨[some ⟨Species.Fish, 1, 1, none, 0⟩, none, none, none, none],
     [some ⟨Species.Fish, 2, 1, none, 0⟩, none, none, none, none]⟩ []
    rfl rfl rfl rfl
    (by
      intro g hg
      simp at hg
      subst hg
      decide)
    (by
      intro g hg
      simp at hg
      subst hg
      decide)


theorem det_species_ne (sp : Species)
    (h : sp.deterministic_in_battle = true) :
    sp ≠ Species.Ant ∧ sp ≠ Species.Mosquito := by
  cases sp <;> revert h <;> decide

theorem det_members (t : Team) (h : Team.deterministic_in_battle t = true) :
    ∀ g, some g ∈ t → g.species.deterministic_in_battle = true := by
  intro g hg
  rw [Team.deterministic_in_battle, List.all_eq_true] at h
  exact h (some g) hg

/-- The Honey half of `Team::on_death` never consults the dice: its
team outcome is the same for any two dice sources and states. -/
theorem honey_det {σ₁ σ₂ : Type} (m : Option Modifier) (i : ℕ) (t₁ : Team)
    (s₁ : σ₁) (s₂ : σ₂) :
    Option.map Prod.fst
      (match m with
        | some Modifier.Honey => do
            let bee : Friend := ⟨Species.Bee, 1, 1, none, 0⟩
            let (ok, t') ← Team.make_space_at t₁ i
            if ok then do
              let t'' ← (List.range TEAM_SIZE).foldlM
                (fun t j =>
                  if i ≠ j ∧ (t.getD j none).isSome then Team.on_summon t j i
                  else pure t) (t'.set i (some bee))
              pure (t'', s₁)
            else pure (t', s₁)
        | none => pure (t₁, s₁) : Option (Team × σ₁)) =
    Option.map Prod.fst
      (match m with
        | some Modifier.Honey => do
            let bee : Friend := ⟨Species.Bee, 1, 1, none, 0⟩
            let (ok, t') ← Team.make_space_at t₁ i
            if ok then do
              let t'' ← (List.range TEAM_SIZE).foldlM
                (fun t j =>
                  if i ≠ j ∧ (t.getD j none).isSome then Team.on_summon t j i
                  else pure t) (t'.set i (some bee))
              pure (t'', s₂)
            else pure (t', s₂)
        | none => pure (t₁, s₂) : Option (Team × σ₂)) := by
  cases m with
  | none => rfl
  | some mm =>
      cases mm
      cases hmsa : Team.make_space_at t₁ i with
      | none => simp [hmsa]
      | some p =>
          obtain ⟨ok, t'⟩ := p
          simp only [hmsa, Option.bind_eq_bind, Option.some_bind]
          cases ok with
          | false => rfl
          | true =>
              cases hfold : (List.range TEAM_SIZE).foldlM
                  (fun t j =>
                    if i ≠ j ∧ (t.getD j none).isSome then
                      Team.on_summon t j i
                    else pure t)
                  (t'.set i
                    (some ⟨Species.Bee, 1, 1, none, 0⟩)) with
              | none => simp [hfold]
              | some t'' => simp [hfold]

/-- `Team::on_death` of a non-Ant friend never consults the dice: its
team outcome is the same for any two dice sources and states. -/
theorem on_death_det {σ₁ σ₂ : Type} (roll₁ : Roll σ₁) (roll₂ : Roll σ₂)
    (f : Friend) (hf : f.species ≠ Species.Ant) (i : ℕ) (t : Team)
    (s₁ : σ₁) (s₂ : σ₂) :
    (Team.on_death roll₁ f i t s₁).map Prod.fst =
      (Team.on_death roll₂ f i t s₂).map Prod.fst := by
  simp only [Team.on_death]
  cases hocc : t.getD i none with
  | some g => simp [hocc]
  | none =>
      simp only [hocc, Option.isSome_none, Bool.false_eq_true, if_false]
      cases hfs : f.species
      case Ant => exact absurd hfs hf
      case Cricket =>
        cases hlv : f.level with
        | none => simp [hlv]
        | some lv =>
            simp only [hlv, Option.bind_eq_bind, Option.some_bind]
            cases hfold : (List.range TEAM_SIZE).foldlM
                (fun t j =>
                  if i ≠ j ∧ (t.getD j none).isSome then
                    Team.on_summon t j i
                  else pure t)
                (t.set i (some ⟨Species.GhostCricket, lv, lv, none, 0⟩)) with
            | none => simp [hfold]
            | some t₂ =>
                simp only [hfold, Option.some_bind, Option.pure_def]
                exact honey_det f.modifier i t₂ s₁ s₂
      all_goals exact honey_det f.modifier i t s₁ s₂


/-- The scanning fold of `Team::remove_dead` over deterministic-species
teams never consults the dice: team and changed-flag outcomes agree for
any two dice sources and states. -/
theorem rd_fold_det {σ₁ σ₂ : Type} (roll₁ : Roll σ₁) (roll₂ : Roll σ₂) :
    ∀ (l : List ℕ) (t : Team) (s₁ : σ₁) (s₂ : σ₂) (ch : Bool),
      t.length = 5 → (∀ j, j ∈ l → j < 5) →
      (∀ g, some g ∈ t → g.species.deterministic_in_battle = true) →
      (l.foldlM
        (fun (acc : Team × σ₁ × Bool) i => do
          let (t, s, changed) := acc
          match t.getD i none with
          | some f =>
              if f.health = 0 then do
                let (t', s') ← Team.on_death roll₁ f i (t.set i none) s
                pure (t', s', true)
              else pure (t, s, changed)
          | none => pure (t, s, changed)) (t, s₁, ch)).map
          (fun (o : Team × σ₁ × Bool) => (o.1, o.2.2)) =
      (l.foldlM
        (fun (acc : Team × σ₂ × Bool) i => do
          let (t, s, changed) := acc
          match t.getD i none with
          | some f =>
              if f.health = 0 then do
                let (t', s') ← Team.on_death roll₂ f i (t.set i none) s
                pure (t', s', true)
              else pure (t, s, changed)
          | none => pure (t, s, changed)) (t, s₂, ch)).map
          (fun (o : Team × σ₂ × Bool) => (o.1, o.2.2))
  | [], t, s₁, s₂, ch, hlen, hl5, hno => rfl
  | i :: l, t, s₁, s₂, ch, hlen, hl5, hno => by
      simp only [List.foldlM_cons, Option.bind_eq_bind]
      cases hg : t.getD i none with
      | none =>
          simp only [hg, Option.pure_def, Option.some_bind]
          exact rd_fold_det roll₁ roll₂ l t s₁ s₂ ch hlen
            (fun j hj => hl5 j (List.mem_cons_of_mem i hj)) hno
      | some g =>
          simp only [hg, Option.pure_def]
          by_cases hh : g.health = 0
          · simp only [if_pos hh]
            have hgd := hno g (mem_of_getD t i g hg)
            have hdet := on_death_det roll₁ roll₂ g
              (det_species_ne g.species hgd).1 i (t.set i none) s₁ s₂
            cases h₁ : Team.on_death roll₁ g i (t.set i none) s₁ with
            | none =>
                have h₂ : Team.on_death roll₂ g i (t.set i none) s₂ =
                    none := by
                  rw [h₁] at hdet
                  simp only [Option.map_none'] at hdet
                  cases h₂ : Team.on_death roll₂ g i (t.set i none) s₂ with
                  | none => rfl
                  | some p =>
                      rw [h₂] at hdet
                      simp at hdet
                simp [h₁, h₂]
            | some p₁ =>
                obtain ⟨t₁, s₁'⟩ := p₁
                rw [h₁] at hdet
                obtain ⟨s₂', h₂⟩ : ∃ s₂',
                    Team.on_death roll₂ g i (t.set i none) s₂ =
                      some (t₁, s₂') := by
                  cases h₂ : Team.on_death roll₂ g i (t.set i none) s₂ with
                  | none =>
                      rw [h₂] at hdet
                      simp at hdet
                  | some p₂ =>
                      obtain ⟨t₂, s₂'⟩ := p₂
                      rw [h₂] at hdet
                      simp only [Option.map_some', Option.some_inj] at hdet
                      exact ⟨s₂', by rw [hdet]⟩
                simp only [h₁, h₂, Option.some_bind]
                have hi5 : i < 5 := hl5 i (List.mem_cons_self i l)
                obtain ⟨plen, psum, ppos, pall⟩ :=
                  on_death_part roll₁ g i (t.set i none) s₁ t₁ s₁' h₁
                    (by simp [hlen]) hi5
                have hno' : ∀ g0, some g0 ∈ t₁ →
                    g0.species.deterministic_in_battle = true := by
                  refine pall (fun g0 => g0.species.deterministic_in_battle
                      = true)
                    (fun f f' hs hm he hhh ha hp => by
                      show f'.species.deterministic_in_battle = true
                      rw [← hs]
                      exact hp)
                    (fun lv _ => by
                      show Species.deterministic_in_battle
                        Species.GhostCricket = true
                      rfl)
                    (by
                      show Species.deterministic_in_battle Species.Bee = true
                      rfl) ?_
                  intro g1 hg1
                  rcases mem_set_cases t i none g1 hg1 with hm | hm
                  · exact hno g1 hm
                  · exact Option.noConfusion hm
                exact rd_fold_det roll₁ roll₂ l t₁ s₁' s₂' true plen
                  (fun j hj => hl5 j (List.mem_cons_of_mem i hj)) hno'
          · simp only [if_neg hh, Option.some_bind]
            exact rd_fold_det roll₁ roll₂ l t s₁ s₂ ch hlen
              (fun j hj => hl5 j (List.mem_cons_of_mem i hj)) hno

/-- `Team::remove_dead` on a deterministic-species team never consults
the dice: the team outcome is the same for any two dice sources. -/
theorem remove_dead_det {σ₁ σ₂ : Type} (roll₁ : Roll σ₁) (roll₂ : Roll σ₂)
    (t : Team) (s₁ : σ₁) (s₂ : σ₂) (hlen : t.length = 5)
    (hno : ∀ g, some g ∈ t → g.species.deterministic_in_battle = true) :
    (Team.remove_dead roll₁ t s₁).map Prod.fst =
      (Team.remove_dead roll₂ t s₂).map Prod.fst := by
  have hdet := rd_fold_det roll₁ roll₂ (List.range TEAM_SIZE) t s₁ s₂ false
    hlen (fun j hj => by simpa [TEAM_SIZE] using List.mem_range.mp hj) hno
  simp only [Team.remove_dead]
  cases h₁ : (List.range TEAM_SIZE).foldlM
      (fun (acc : Team × σ₁ × Bool) i => do
        let (t, s, changed) := acc
        match t.getD i none with
        | some f =>
            if f.health = 0 then do
              let (t', s') ← Team.on_death roll₁ f i (t.set i none) s
              pure (t', s', true)
            else pure (t, s, changed)
        | none => pure (t, s, changed)) (t, s₁, false) with
  | none =>
      rw [h₁] at hdet
      simp only [Option.map_none'] at hdet
      cases h₂ : (List.range TEAM_SIZE).foldlM
          (fun (acc : Team × σ₂ × Bool) i => do
            let (t, s, changed) := acc
            match t.getD i none with
            | some f =>
                if f.health = 0 then do
                  let (t', s') ← Team.on_death roll₂ f i (t.set i none) s
                  pure (t', s', true)
                else pure (t, s, changed)
            | none => pure (t, s, changed)) (t, s₂, false) with
      | none => rfl
      | some p =>
          rw [h₂] at hdet
          simp at hdet
  | some p₁ =>
      obtain ⟨t₁, s₁', ch₁⟩ := p₁
      rw [h₁] at hdet
      cases h₂ : (List.range TEAM_SIZE).foldlM
          (fun (acc : Team × σ₂ × Bool) i => do
            let (t, s, changed) := acc
            match t.getD i none with
            | some f =>
                if f.health = 0 then do
                  let (t', s') ← Team.on_death roll₂ f i (t.set i none) s
                  pure (t', s', true)
                else pure (t, s, changed)
            | none => pure (t, s, changed)) (t, s₂, false) with
      | none =>
          rw [h₂] at hdet
          simp at hdet
      | some p₂ =>
          obtain ⟨t₂, s₂', ch₂⟩ := p₂
          rw [h₂] at hdet
          simp only [Option.map_some', Option.some_inj,
            Prod.mk.injEq] at hdet
          obtain ⟨he1, he2⟩ := hdet
          subst he1
          subst he2
          rfl


theorem det_buffClosed :
    buffClosed (fun g0 => g0.species.deterministic_in_battle = true) := by
  intro f f' hs hm he hh ha hp
  show f'.species.deterministic_in_battle = true
  rw [← hs]
  exact hp

theorem det_ghost : ∀ lv : ℕ, lv = 1 ∨ lv = 3 →
    (fun g0 => g0.species.deterministic_in_battle = true)
      (⟨Species.GhostCricket, lv, lv, none, 0⟩ : Friend) :=
  fun lv _ => rfl

theorem det_bee :
    (fun g0 => g0.species.deterministic_in_battle = true)
      (⟨Species.Bee, 1, 1, none, 0⟩ : Friend) := rfl

theorem map_fst_none {α β γ : Type} {x : Option (α × β)}
    {y : Option (α × γ)} (h : x.map Prod.fst = y.map Prod.fst)
    (hx : x = none) : y = none := by
  rw [hx] at h
  simp only [Option.map_none'] at h
  cases hy : y with
  | none => rfl
  | some p =>
      rw [hy] at h
      simp at h

theorem map_fst_some {α β γ : Type} {x : Option (α × β)}
    {y : Option (α × γ)} {a : α} {b : β}
    (h : x.map Prod.fst = y.map Prod.fst) (hx : x = some (a, b)) :
    ∃ c, y = some (a, c) := by
  rw [hx] at h
  cases hy : y with
  | none =>
      rw [hy] at h
      simp at h
  | some p =>
      obtain ⟨a', c⟩ := p
      rw [hy] at h
      simp only [Option.map_some', Option.some_inj] at h
      refine ⟨c, ?_⟩
      rw [h]

/-- A battle-start trigger of a non-Mosquito (or empty) slot does
nothing. -/
theorem obs_id {σ : Type} (roll : Roll σ) (bt : Battle) (i : ℕ)
    (side : Bool) (s : σ)
    (hns : ∀ g, some g ∈ bt.side side → g.species ≠ Species.Mosquito) :
    Battle.on_battle_start roll bt i side s = some (bt, s) := by
  rw [Battle.on_battle_start]
  cases hslot : (bt.side side).getD i none with
  | none => rfl
  | some f =>
      cases hfs : f.species
      case Mosquito => exact absurd hfs (hns f (mem_of_getD _ i f hslot))
      all_goals simp only [hfs]

theorem bb_inner_id {σ : Type} (roll : Roll σ) (tm : Bool) :
    ∀ (l : List ℕ) (bt : Battle) (s : σ),
      (∀ g, some g ∈ bt.side tm → g.species ≠ Species.Mosquito) →
      l.foldlM (fun (p : Battle × σ) i =>
        Battle.on_battle_start roll p.1 i tm p.2) (bt, s) = some (bt, s)
  | [], bt, s, hns => rfl
  | i :: l, bt, s, hns => by
      simp only [List.foldlM_cons, Option.bind_eq_bind]
      rw [obs_id roll bt i tm s hns, Option.some_bind]
      exact bb_inner_id roll tm l bt s hns

/-- One clash keeps the lengths and the deterministic-species property of
both teams. -/
theorem step_pres_det {σ : Type} (roll : Roll σ) (bt bt' : Battle)
    (s s' : σ) (h : Battle.step roll bt s = some (bt', s'))
    (hla : bt.a.length = 5) (hlb : bt.b.length = 5)
    (hna : ∀ g, some g ∈ bt.a → g.species.deterministic_in_battle = true)
    (hnb : ∀ g, some g ∈ bt.b → g.species.deterministic_in_battle = true) :
    bt'.a.length = 5 ∧ bt'.b.length = 5 ∧
      (∀ g, some g ∈ bt'.a → g.species.deterministic_in_battle = true) ∧
      (∀ g, some g ∈ bt'.b → g.species.deterministic_in_battle = true) := by
  rw [Battle.step] at h
  simp only [Option.bind_eq_bind, Option.bind_eq_some] at h
  obtain ⟨f, hf, g, hg, ⟨ta, sa⟩, hra, hrest⟩ := h
  simp only [Option.bind_eq_bind, Option.bind_eq_some, Option.pure_def,
    Option.some_inj, Prod.mk.injEq] at hrest
  obtain ⟨⟨tb, sb⟩, hrb, he1, he2⟩ := hrest
  subst he1
  have hmA : ∀ g0, some g0 ∈
      bt.a.set 0 (some { f with health := f.health - g.attack }) →
      g0.species.deterministic_in_battle = true := by
    intro g0 hg0
    rcases mem_set_cases _ 0 _ g0 hg0 with hm | hm
    · exact hna g0 hm
    · rw [Option.some_inj] at hm
      rw [hm]
      exact hna f (mem_of_getD _ 0 f hf)
  have hmB : ∀ g0, some g0 ∈
      bt.b.set 0 (some { g with health := g.health - f.attack }) →
      g0.species.deterministic_in_battle = true := by
    intro g0 hg0
    rcases mem_set_cases _ 0 _ g0 hg0 with hm | hm
    · exact hnb g0 hm
    · rw [Option.some_inj] at hm
      rw [hm]
      exact hnb g (mem_of_getD _ 0 g hg)
  obtain ⟨ral, rasum, rapos, racont, raall⟩ :=
    remove_dead_part roll _ s ta sa hra (by simp [hla])
  obtain ⟨rbl, rbsum, rbpos, rbcont, rball⟩ :=
    remove_dead_part roll _ sa tb sb hrb (by simp [hlb])
  exact ⟨ral, rbl,
    raall (fun g0 => g0.species.deterministic_in_battle = true)
      det_buffClosed det_ghost det_bee hmA,
    rball (fun g0 => g0.species.deterministic_in_battle = true)
      det_buffClosed det_ghost det_bee hmB⟩

/-- One clash on deterministic-species teams never consults the dice:
the battle-state outcome is the same for any two dice sources. -/
theorem step_det {σ₁ σ₂ : Type} (roll₁ : Roll σ₁) (roll₂ : Roll σ₂)
    (bt : Battle) (s₁ : σ₁) (s₂ : σ₂)
    (hla : bt.a.length = 5) (hlb : bt.b.length = 5)
    (hna : ∀ g, some g ∈ bt.a → g.species.deterministic_in_battle = true)
    (hnb : ∀ g, some g ∈ bt.b → g.species.deterministic_in_battle = true) :
    (Battle.step roll₁ bt s₁).map Prod.fst =
      (Battle.step roll₂ bt s₂).map Prod.fst := by
  simp only [Battle.step]
  cases hf : bt.a.getD 0 none with
  | none => simp [hf]
  | some f =>
      simp only [hf, Option.bind_eq_bind, Option.some_bind]
      cases hg : bt.b.getD 0 none with
      | none => simp [hg]
      | some g =>
          simp only [hg, Option.some_bind]
          have hmA : ∀ g0, some g0 ∈
              bt.a.set 0 (some { f with health := f.health - g.attack }) →
              g0.species.deterministic_in_battle = true := by
            intro g0 hg0
            rcases mem_set_cases _ 0 _ g0 hg0 with hm | hm
            · exact hna g0 hm
            · rw [Option.some_inj] at hm
              rw [hm]
              exact hna f (mem_of_getD _ 0 f hf)
          have hmB : ∀ g0, some g0 ∈
              bt.b.set 0 (some { g with health := g.health - f.attack }) →
              g0.species.deterministic_in_battle = true := by
            intro g0 hg0
            rcases mem_set_cases _ 0 _ g0 hg0 with hm | hm
            · exact hnb g0 hm
            · rw [Option.some_inj] at hm
              rw [hm]
              exact hnb g (mem_of_getD _ 0 g hg)
          have hdA := remove_dead_det roll₁ roll₂
            (bt.a.set 0 (some { f with health := f.health - g.attack }))
            s₁ s₂ (by simp [hla]) hmA
          cases h₁ : Team.remove_dead roll₁
              (bt.a.set 0 (some { f with health := f.health - g.attack }))
              s₁ with
          | none =>
              have h₂ := map_fst_none hdA h₁
              simp [h₁, h₂]
          | some p₁ =>
              obtain ⟨ta, sa₁⟩ := p₁
              obtain ⟨sa₂, h₂⟩ := map_fst_some hdA h₁
              have hdB := remove_dead_det roll₁ roll₂
                (bt.b.set 0
                  (some { g with health := g.health - f.attack }))
                sa₁ sa₂ (by simp [hlb]) hmB
              cases h₃ : Team.remove_dead roll₁
                  (bt.b.set 0
                    (some { g with health := g.health - f.attack }))
                  sa₁ with
              | none =>
                  have h₄ := map_fst_none hdB h₃
                  simp [h₁, h₂, h₃, h₄]
              | some p₃ =>
                  obtain ⟨tb, sb₁⟩ := p₃
                  obtain ⟨sb₂, h₄⟩ := map_fst_some hdB h₃
                  simp [h₁, h₂, h₃, h₄]

/-- The turn loop of `Battle::run` on deterministic-species teams returns
the same outcome for any two dice sources. -/
theorem run_go_det {σ₁ σ₂ : Type} (roll₁ : Roll σ₁) (roll₂ : Roll σ₂) :
    ∀ (n : ℕ) (bt : Battle) (s₁ : σ₁) (s₂ : σ₂),
      bt.a.length = 5 → bt.b.length = 5 →
      (∀ g, some g ∈ bt.a → g.species.deterministic_in_battle = true) →
      (∀ g, some g ∈ bt.b → g.species.deterministic_in_battle = true) →
      Battle.run_go roll₁ n bt s₁ = Battle.run_go roll₂ n bt s₂
  | 0, bt, s₁, s₂, _, _, _, _ => rfl
  | n + 1, bt, s₁, s₂, hla, hlb, hna, hnb => by
      cases hea : Team.is_empty bt.a <;> cases heb : Team.is_empty bt.b
      · simp only [Battle.run_go, hea, heb]
        have hsd := step_det roll₁ roll₂ bt s₁ s₂ hla hlb hna hnb
        cases h₁ : Battle.step roll₁ bt s₁ with
        | none =>
            have h₂ := map_fst_none hsd h₁
            rw [h₂]
            rfl
        | some p₁ =>
            obtain ⟨bt', s₁'⟩ := p₁
            obtain ⟨s₂', h₂⟩ := map_fst_some hsd h₁
            rw [h₂]
            simp only [Option.some_bind]
            obtain ⟨q1, q2, q3, q4⟩ :=
              step_pres_det roll₁ bt bt' s₁ s₁' h₁ hla hlb hna hnb
            exact run_go_det roll₁ roll₂ n bt' s₁' s₂' q1 q2 q3 q4
      · simp only [Battle.run_go, hea, heb]
      · simp only [Battle.run_go, hea, heb]
      · simp only [Battle.run_go, hea, heb]


/-- C6: a battle in which every unit on both teams belongs to a species
without a randomized ability (`Battle::is_deterministic`) returns the
same outcome on any two executions, regardless of the dice sources and
their states: only the Ant on-death buff and the Mosquito battle-start
shots consult the dice, and neither species is present. -/
theorem C6_deterministic_battle {σ₁ σ₂ : Type} (roll₁ : Roll σ₁)
    (roll₂ : Roll σ₂) (bt : Battle) (n : ℕ) (s₁ : σ₁) (s₂ : σ₂)
    (hla : bt.a.length = 5) (hlb : bt.b.length = 5)
    (hdet : Battle.is_deterministic bt = true) :
    Battle.run roll₁ n bt s₁ = Battle.run roll₂ n bt s₂ := by
  rw [Battle.is_deterministic, Bool.and_eq_true] at hdet
  have hda := det_members bt.a hdet.1
  have hdb := det_members bt.b hdet.2
  have hnma : ∀ g, some g ∈ bt.a → g.species ≠ Species.Mosquito :=
    fun g hg => (det_species_ne g.species (hda g hg)).2
  have hnmb : ∀ g, some g ∈ bt.b → g.species ≠ Species.Mosquito :=
    fun g hg => (det_species_ne g.species (hdb g hg)).2
  have houter₁ : [true, false].foldlM
      (fun (p : Battle × σ₁) tm =>
        (List.range TEAM_SIZE).foldlM
          (fun (p : Battle × σ₁) i =>
            Battle.on_battle_start roll₁ p.1 i tm p.2)
          p)
      (bt, s₁) = some (bt, s₁) := by
    simp only [List.foldlM_cons, List.foldlM_nil, Option.bind_eq_bind]
    rw [bb_inner_id roll₁ true (List.range TEAM_SIZE) bt s₁ hnma,
      Option.some_bind,
      bb_inner_id roll₁ false (List.range TEAM_SIZE) bt s₁ hnmb]
    rfl
  have houter₂ : [true, false].foldlM
      (fun (p : Battle × σ₂) tm =>
        (List.range TEAM_SIZE).foldlM
          (fun (p : Battle × σ₂) i =>
            Battle.on_battle_start roll₂ p.1 i tm p.2)
          p)
      (bt, s₂) = some (bt, s₂) := by
    simp only [List.foldlM_cons, List.foldlM_nil, Option.bind_eq_bind]
    rw [bb_inner_id roll₂ true (List.range TEAM_SIZE) bt s₂ hnma,
      Option.some_bind,
      bb_inner_id roll₂ false (List.range TEAM_SIZE) bt s₂ hnmb]
    rfl
  simp only [Battle.run, Battle.before_battle]
  rw [houter₁, houter₂]
  simp only [Option.bind_eq_bind, Option.some_bind]
  have hdA := remove_dead_det roll₁ roll₂ bt.a s₁ s₂ hla hda
  cases h₁ : Team.remove_dead roll₁ bt.a s₁ with
  | none =>
      have h₂ := map_fst_none hdA h₁
      rw [h₂]
      rfl
  | some p₁ =>
      obtain ⟨ta, sa₁⟩ := p₁
      obtain ⟨sa₂, h₂⟩ := map_fst_some hdA h₁
      rw [h₂]
      simp only [Option.some_bind]
      obtain ⟨ral, rasum, rapos, racont, raall⟩ :=
        remove_dead_part roll₁ bt.a s₁ ta sa₁ h₁ hla
      have hta : ∀ g, some g ∈ ta →
          g.species.deterministic_in_battle = true :=
        raall (fun g0 => g0.species.deterministic_in_battle = true)
          det_buffClosed det_ghost det_bee hda
      have hdB := remove_dead_det roll₁ roll₂ bt.b sa₁ sa₂ hlb hdb
      cases h₃ : Team.remove_dead roll₁ bt.b sa₁ with
      | none =>
          have h₄ := map_fst_none hdB h₃
          rw [h₄]
          rfl
      | some p₃ =>
          obtain ⟨tb, sb₁⟩ := p₃
          obtain ⟨sb₂, h₄⟩ := map_fst_some hdB h₃
          rw [h₄]
          simp only [Option.some_bind, Option.pure_def]
          obtain ⟨rbl, rbsum, rbpos, rbcont, rball⟩ :=
            remove_dead_part roll₁ bt.b sa₁ tb sb₁ h₃ hlb
          have htb : ∀ g, some g ∈ tb →
              g.species.deterministic_in_battle = true :=
            rball (fun g0 => g0.species.deterministic_in_battle = true)
              det_buffClosed det_ghost det_bee hdb
          exact run_go_det roll₁ roll₂ n ⟨ta, tb⟩ sb₁ sb₂ ral rbl hta htb

theorem C6_deterministic_battle_witness :
    Battle.is_deterministic
      ⟨[some ⟨Species.Fish, 2, 3, none, 0⟩, none, none, none, none],
       [some ⟨Species.Horse, 1, 2, none, 0⟩, none, none, none, none]⟩ =
      true ∧
    Battle.run lenientRoll 3
        ⟨[some ⟨Species.Fish, 2, 3, none, 0⟩, none, none, none, none],
         [some ⟨Species.Horse, 1, 2, none, 0⟩, none, none, none, none]⟩
        [5, 7] =
      Battle.run lenientRoll 3
        ⟨[some ⟨Species.Fish, 2, 3, none, 0⟩, none, none, none, none],
         [some ⟨Species.Horse, 1, 2, none, 0⟩, none, none, none, none]⟩
        [] :=
  ⟨rfl,
   C6_deterministic_battle lenientRoll lenientRoll
     ⟨[some ⟨Species.Fish, 2, 3, none, 0⟩, none, none, none, none],
      [some ⟨Species.Horse, 1, 2, none, 0⟩, none, none, none, none]⟩
     3 [5, 7] [] rfl rfl rfl⟩


end SAS
